import Mathlib

/-!
Verification of the `howlong` workspace file-statistics core.

The development shallowly embeds the TypeScript sources:

* `src/models/fileStats.ts`  — the data model (`FileStats`, `ProjectStats`, …);
* `src/services/cacheService.ts` — the per-file cache, the memoized project
  aggregate, and `getModifiedFiles`;
* `src/services/fileAnalysisService.ts` — `analyzeFile`, `buildProjectStats`,
  `getFileExtension` and the `analyzeWorkspace` driver;
* `src/tree-view/projectStatsProvider.ts` — `buildFolderStructure`.

Modelling conventions:

* JS numbers that hold byte counts, character counts and timestamps are
  modelled as `Nat`; the derived physical length (a JS float obtained by
  multiplying a count with the calibration scale factor) is modelled as an
  exact rational `ℚ`, with the scale factor an arbitrary `ℚ`.
* `Date.now()` is passed in explicitly as a `now : Nat` parameter.
* The VS Code file system (`stat`, `readFile` + strict UTF-8 decode,
  `asRelativePath`, `findFiles`) is modelled as an explicit environment of
  pure functions; a decode or stat failure is `none`.
* JS `Map` objects keyed by strings are modelled extensionally as functions
  `String → Option _` where only lookup/insert/delete matter, and as
  insertion-ordered association lists where iteration order matters
  (the folder map of `buildFolderStructure`).
* `async`/`await` with `Promise.all` over a chunk preserves the order of
  results, and the chunks are concatenated in order, so chunked analysis is
  modelled as a single in-order fold.
-/

namespace HowLong

/-- `FileStats` from `src/models/fileStats.ts`: one analyzed file. -/
structure FileStats where
  path : String
  relativePath : String
  characterCount : Nat
  lengthInCm : ℚ
  fileSize : Nat
  lastModified : Nat
  isTextFile : Bool
deriving DecidableEq, Repr

/-- `ProjectStats` from `src/models/fileStats.ts`.  The `filesByExtension`
JS `Map` is modelled extensionally by its lookup function (a key that was
never inserted maps to `[]`, matching an absent key). -/
structure ProjectStats where
  totalFiles : Nat
  totalCharacters : Nat
  totalLengthInCm : ℚ
  totalSizeInBytes : Nat
  filesByExtension : String → List FileStats
  lastUpdated : Nat

/-- Result of `vscode.workspace.fs.stat`. -/
structure FsStat where
  size : Nat
  mtime : Nat
deriving DecidableEq, Repr

/-- The mutable state owned by `CacheService` (`src/services/cacheService.ts`). -/
structure CacheState where
  projectStatsCache : Option ProjectStats
  fileStatsCache : String → Option FileStats
  cacheTimestamp : Nat

/-- `CACHE_DURATION = 5 * 60 * 1000` (five minutes in milliseconds). -/
def CACHE_DURATION : Nat := 5 * 60 * 1000

/-- `CacheService.isCacheValid`: `cacheTimestamp > 0 && Date.now() - cacheTimestamp < CACHE_DURATION`.
JS subtraction of a larger timestamp yields a negative number, which is
`< CACHE_DURATION` exactly when the truncated `Nat` subtraction is. -/
def isCacheValid (s : CacheState) (now : Nat) : Bool :=
  decide (0 < s.cacheTimestamp) && decide (now - s.cacheTimestamp < CACHE_DURATION)

/-- `CacheService.getCachedProjectStats`. -/
def getCachedProjectStats (s : CacheState) (now : Nat) : Option ProjectStats :=
  if isCacheValid s now then s.projectStatsCache else none

/-- `CacheService.setCachedProjectStats`. -/
def setCachedProjectStats (s : CacheState) (stats : ProjectStats) (now : Nat) : CacheState :=
  { s with projectStatsCache := some stats, cacheTimestamp := now }

/-- `CacheService.getCachedFileStats` (`map.get(path) || null`). -/
def getCachedFileStats (s : CacheState) (filePath : String) : Option FileStats :=
  s.fileStatsCache filePath

/-- `CacheService.setCachedFileStats` (`map.set(path, stats)`). -/
def setCachedFileStats (s : CacheState) (filePath : String) (stats : FileStats) : CacheState :=
  { s with fileStatsCache := fun q => if q = filePath then some stats else s.fileStatsCache q }

/-- `CacheService.invalidateCache`: clears everything. -/
def invalidateCache (_s : CacheState) : CacheState :=
  { projectStatsCache := none, fileStatsCache := fun _ => none, cacheTimestamp := 0 }

/-- `CacheService.invalidateFileCache`: `map.delete(path)` and
`projectStatsCache = null` (the timestamp is left alone). -/
def invalidateFileCache (s : CacheState) (filePath : String) : CacheState :=
  { s with fileStatsCache := fun q => if q = filePath then none else s.fileStatsCache q,
           projectStatsCache := none }

/-- `CacheService.getModifiedFiles`: with no memoized project aggregate every
candidate is returned; otherwise a candidate is kept when its live stat fails,
when it has no cached record, or when the live mtime is strictly newer than
the cached one.  The JS loop pushes in iteration order, i.e. it filters. -/
def getModifiedFiles (s : CacheState) (stat : String → Option FsStat)
    (allFiles : List String) : List String :=
  match s.projectStatsCache with
  | none => allFiles
  | some _ =>
    allFiles.filter fun file =>
      match stat file with
      | none => true
      | some st =>
        match s.fileStatsCache file with
        | none => true
        | some cached => decide (cached.lastModified < st.mtime)

/-- Staleness as the specification words it: no cached record, or the live
modification time is strictly newer than the cached record's. -/
def isStale (s : CacheState) (stat : String → Option FsStat) (p : String) : Prop :=
  s.fileStatsCache p = none ∨
    ∃ st cached, stat p = some st ∧ s.fileStatsCache p = some cached ∧
      cached.lastModified < st.mtime

end HowLong

namespace HowLong

/-! ### Shared concrete objects used by the witnesses -/

/-- A trivial `ProjectStats` value. -/
def emptyProjectStats : ProjectStats :=
  { totalFiles := 0, totalCharacters := 0, totalLengthInCm := 0, totalSizeInBytes := 0,
    filesByExtension := fun _ => [], lastUpdated := 0 }

/-- A concrete cached file record. -/
def wRecA : FileStats :=
  { path := "a", relativePath := "a", characterCount := 1, lengthInCm := 1, fileSize := 1,
    lastModified := 5, isTextFile := true }

/-- A cache holding a memoized aggregate and a record for `"a"`. -/
def wCache : CacheState :=
  { projectStatsCache := some emptyProjectStats,
    fileStatsCache := fun q => if q = "a" then some wRecA else none,
    cacheTimestamp := 1 }

/-- A live file system where `"a"` exists with mtime `10`. -/
def wStat : String → Option FsStat :=
  fun q => if q = "a" then some { size := 1, mtime := 10 } else none

/-- A live file system where every stat fails. -/
def wStatNone : String → Option FsStat := fun _ => none

/-! ### C3: `getModifiedFiles` returns exactly the stale candidates -/

/-- C3.  `getModifiedFiles` keeps exactly the stale candidates: when no project
aggregate is memoized it returns every candidate, and otherwise (provided the
live stat succeeds on the candidates) a candidate is returned iff it has no
cached record or its live modification time is strictly newer than the cached
record's. -/
theorem getModifiedFiles_spec (s : CacheState) (stat : String → Option FsStat)
    (allFiles : List String)
    (hstat : ∀ p ∈ allFiles, (stat p).isSome = true) :
    (s.projectStatsCache = none → getModifiedFiles s stat allFiles = allFiles) ∧
    (s.projectStatsCache ≠ none →
      ∀ p, p ∈ getModifiedFiles s stat allFiles ↔ p ∈ allFiles ∧ isStale s stat p) := by
  constructor
  · intro h
    unfold getModifiedFiles
    rw [h]
  · intro h p
    rcases hc : s.projectStatsCache with _ | x
    · exact absurd hc h
    unfold getModifiedFiles
    rw [hc]
    rw [List.mem_filter]
    constructor
    · rintro ⟨hp, hpred⟩
      refine ⟨hp, ?_⟩
      rcases hs : stat p with _ | st
      · have := hstat p hp
        rw [hs] at this
        simp at this
      · rw [hs] at hpred
        rcases hf : s.fileStatsCache p with _ | cached
        · exact Or.inl hf
        · rw [hf] at hpred
          exact Or.inr ⟨st, cached, hs, hf, of_decide_eq_true hpred⟩
    · rintro ⟨hp, hstale⟩
      refine ⟨hp, ?_⟩
      rcases hs : stat p with _ | st
      · rfl
      rcases hf : s.fileStatsCache p with _ | cached
      · rfl
      rcases hstale with hnone | ⟨st', cached', hst', hf', hlt⟩
      · rw [hf] at hnone
        cases hnone
      · rw [hs] at hst'
        rw [hf] at hf'
        cases hst'
        cases hf'
        exact decide_eq_true hlt
  
/-- Witness for C3: in `wCache` the record for `"a"` has mtime `5` while the
live mtime is `10`, so `"a"` is returned. -/
theorem getModifiedFiles_spec_witness :
    "a" ∈ getModifiedFiles wCache wStat ["a"] := by
  have h := (getModifiedFiles_spec wCache wStat ["a"] (by decide)).2
    (by simp [wCache]) "a"
  refine h.mpr ⟨by simp, Or.inr ⟨{ size := 1, mtime := 10 }, wRecA, ?_, ?_, by decide⟩⟩
  · simp [wStat]
  · simp [wCache]

/-! ### C10: a candidate whose live stat fails is re-analyzed -/

/-- C10.  A candidate whose live stat fails during `getModifiedFiles` is
included in the returned list (rather than raising or being dropped), even
when a cached record for it exists. -/
theorem getModifiedFiles_statFailure (s : CacheState) (stat : String → Option FsStat)
    (allFiles : List String) (p : String) (ps : ProjectStats)
    (hc : s.projectStatsCache = some ps) (hp : p ∈ allFiles) (hstat : stat p = none) :
    p ∈ getModifiedFiles s stat allFiles := by
  unfold getModifiedFiles
  rw [hc]
  refine List.mem_filter.mpr ⟨hp, ?_⟩
  rw [hstat]

/-- Witness for C10: `"a"` has a cached record but its stat fails, and it is
still returned. -/
theorem getModifiedFiles_statFailure_witness :
    "a" ∈ getModifiedFiles wCache wStatNone ["a"] :=
  getModifiedFiles_statFailure wCache wStatNone ["a"] "a" emptyProjectStats rfl
    (by simp) rfl

/-! ### C5: `invalidateFileCache` is a single-entry invalidation -/

/-- C5.  `invalidateFileCache p` removes the record keyed by `p`, clears the
memoized project aggregate, and leaves every other cached record (and the
freshness timestamp) unchanged. -/
theorem invalidateFileCache_frame (s : CacheState) (p : String) :
    (invalidateFileCache s p).fileStatsCache p = none ∧
    (invalidateFileCache s p).projectStatsCache = none ∧
    (∀ q, q ≠ p → (invalidateFileCache s p).fileStatsCache q = s.fileStatsCache q) ∧
    (invalidateFileCache s p).cacheTimestamp = s.cacheTimestamp := by
  refine ⟨by simp [invalidateFileCache], rfl, fun q hq => by simp [invalidateFileCache, hq], rfl⟩

/-- Witness for C5 at the concrete cache `wCache`, invalidating `"a"` and
checking `"b"` is untouched. -/
theorem invalidateFileCache_frame_witness :
    (invalidateFileCache wCache "a").fileStatsCache "a" = none ∧
    (invalidateFileCache wCache "a").projectStatsCache = none ∧
    (invalidateFileCache wCache "a").fileStatsCache "b" = wCache.fileStatsCache "b" ∧
    (invalidateFileCache wCache "a").cacheTimestamp = wCache.cacheTimestamp := by
  obtain ⟨h1, h2, h3, h4⟩ := invalidateFileCache_frame wCache "a"
  exact ⟨h1, h2, h3 "b" (by decide), h4⟩

/-! ### C8: the memoized aggregate is returned iff stored and fresh -/

/-- C8.  Provided the store happened at a positive clock time, the memoized
project aggregate is returned exactly when one is stored and the elapsed time
since it was stored is under the fixed five-minute window; otherwise the
lookup behaves as absent. -/
theorem getCachedProjectStats_spec (s : CacheState) (now : Nat) (a : ProjectStats)
    (h : 0 < s.cacheTimestamp) :
    getCachedProjectStats s now = some a ↔
      s.projectStatsCache = some a ∧ now - s.cacheTimestamp < CACHE_DURATION := by
  unfold getCachedProjectStats isCacheValid
  by_cases hf : now - s.cacheTimestamp < CACHE_DURATION
  · simp [h, hf]
  · simp [h, hf]

/-- A cache with an aggregate freshly stored at time `1`. -/
def wFreshCache : CacheState :=
  { projectStatsCache := some emptyProjectStats,
    fileStatsCache := fun _ => none, cacheTimestamp := 1 }

/-- Witness for C8: a freshly stored aggregate is returned. -/
theorem getCachedProjectStats_spec_witness :
    getCachedProjectStats wFreshCache 2 = some emptyProjectStats :=
  (getCachedProjectStats_spec wFreshCache 2 emptyProjectStats (by decide)).mpr
    ⟨rfl, by decide⟩

end HowLong

namespace HowLong

/-! ### The file probe: `FileAnalysisService.analyzeFile` -/

/-- The external world seen by `FileAnalysisService`:
* `workspaceFolder` — `vscode.workspace.workspaceFolders?.[0]`;
* `stat` — `vscode.workspace.fs.stat` (`none` = the call throws);
* `decoded` — `fs.readFile` followed by a strict UTF-8 `TextDecoder` decode:
  `some n` is a successful decode of length `n` (JS `text.length`),
  `none` is a read failure or an invalid byte sequence;
* `rel` — `vscode.workspace.asRelativePath`;
* `files` — the `findFiles('**/*', excludePatterns)` enumeration. -/
structure Env where
  workspaceFolder : Option String
  stat : String → Option FsStat
  decoded : String → Option Nat
  rel : String → String
  files : List String

/-- `FileAnalysisService.analyzeFile`: a stat failure yields `null` (skip);
otherwise a successful decode classifies the file as text with the decoded
character count, a failed decode as binary with zero count, and
`lengthInCm = isTextFile ? characterCount * cmPerChar : 0`. -/
def analyzeFile (env : Env) (fileUri : String) (cmPerChar : ℚ) : Option FileStats :=
  match env.stat fileUri with
  | none => none
  | some st =>
    let res : Nat × Bool :=
      match env.decoded fileUri with
      | some n => (n, true)
      | none => (0, false)
    some { path := fileUri, relativePath := env.rel fileUri,
           characterCount := res.1,
           lengthInCm := if res.2 then (res.1 : ℚ) * cmPerChar else 0,
           fileSize := st.size, lastModified := st.mtime, isTextFile := res.2 }

/-- C2.  When the stat succeeds, `analyzeFile` classifies by decode success:
a decodable file is text with the decoded length and
`lengthInCm = characterCount * scale`; an undecodable file is binary with
zero count and zero length; in both cases `fileSize` is the stat size. -/
theorem analyzeFile_spec (env : Env) (p : String) (cm : ℚ) (st : FsStat) (r : FileStats)
    (hstat : env.stat p = some st) (hr : analyzeFile env p cm = some r) :
    (∀ n, env.decoded p = some n →
       r.isTextFile = true ∧ r.characterCount = n ∧ r.lengthInCm = (n : ℚ) * cm) ∧
    (env.decoded p = none →
       r.isTextFile = false ∧ r.characterCount = 0 ∧ r.lengthInCm = 0) ∧
    r.fileSize = st.size := by
  unfold analyzeFile at hr
  rw [hstat] at hr
  rcases hd : env.decoded p with _ | n <;> rw [hd] at hr <;>
    simp only [Option.some.injEq] at hr <;> subst hr
  · exact ⟨fun n hn => absurd hn (by simp), fun _ => ⟨rfl, rfl, rfl⟩, rfl⟩
  · refine ⟨fun n' hn => ?_, fun hnone => absurd hnone (by simp), rfl⟩
    obtain rfl : n = n' := by injection hn
    exact ⟨rfl, rfl, rfl⟩

/-- An environment with a text file `"t"` (3 characters, 7 bytes) and a
binary file `"b"`. -/
def wEnv2 : Env :=
  { workspaceFolder := some "w",
    stat := fun p => if p = "t" ∨ p = "b" then some { size := 7, mtime := 5 } else none,
    decoded := fun p => if p = "t" then some 3 else none,
    rel := id, files := ["t", "b"] }

/-- The record `analyzeFile` produces for `"t"` under `wEnv2`. -/
def wRecT : FileStats :=
  (analyzeFile wEnv2 "t" ((1 : ℚ) / 2)).getD
    { path := "", relativePath := "", characterCount := 0, lengthInCm := 0,
      fileSize := 0, lastModified := 0, isTextFile := false }

/-- Witness for C2: the text file `"t"` gets count 3 and length `3 * (1/2)`. -/
theorem analyzeFile_spec_witness :
    wRecT.isTextFile = true ∧ wRecT.characterCount = 3 ∧
      wRecT.lengthInCm = (3 : ℚ) * ((1 : ℚ) / 2) :=
  (analyzeFile_spec wEnv2 "t" ((1 : ℚ) / 2) { size := 7, mtime := 5 } wRecT
    (by simp [wEnv2]) rfl).1 3 (by simp [wEnv2])

/-! ### Extension grouping: `getFileExtension` and `buildProjectStats` -/

/-- `FileAnalysisService.getFileExtension`:
`lastIndexOf('.') == -1` yields the fixed `"No extension"` bucket, otherwise
`substring(lastDot)` — the characters from the last dot (dot included) to the
end of the path.  Expressed over the character list: the suffix of characters
strictly after the last `'.'` is `(data.reverse.takeWhile (· ≠ '.')).reverse`,
and the dot itself is prepended. -/
def getFileExtension (filePath : String) : String :=
  if '.' ∈ filePath.data then
    String.mk ('.' :: (filePath.data.reverse.takeWhile (fun c => c ≠ '.')).reverse)
  else "No extension"

/-- The extension key as the specification's words describe it: the substring
strictly *after* the last `'.'` (dot excluded). -/
def getFileExtensionSpec (filePath : String) : String :=
  if '.' ∈ filePath.data then
    String.mk ((filePath.data.reverse.takeWhile (fun c => c ≠ '.')).reverse)
  else "No extension"

/-- `FileAnalysisService.buildProjectStats`: one pass accumulating the four
totals and pushing each record onto the list at its extension key. -/
def buildProjectStats (fileStats : List FileStats) (now : Nat) : ProjectStats :=
  { totalFiles := fileStats.length,
    totalCharacters := fileStats.foldl (fun acc f => acc + f.characterCount) 0,
    totalLengthInCm := fileStats.foldl (fun acc f => acc + f.lengthInCm) 0,
    totalSizeInBytes := fileStats.foldl (fun acc f => acc + f.fileSize) 0,
    filesByExtension := fileStats.foldl
      (fun m f => fun k => if k = getFileExtension f.path then m k ++ [f] else m k)
      (fun _ => []),
    lastUpdated := now }

/-- A one-character text file named `a.ts`. -/
def wRecTs : FileStats :=
  { path := "a.ts", relativePath := "a.ts", characterCount := 1, lengthInCm := 1,
    fileSize := 1, lastModified := 0, isTextFile := true }

/-- Counterexample for C6 as stated: for the path `"a.ts"` the claimed key —
the substring after the last dot, `"ts"` — holds no file; the record is
grouped under `".ts"`, the substring from the last dot with the dot
included. -/
theorem buildProjectStats_extension_counterexample :
    getFileExtensionSpec "a.ts" = "ts" ∧
    (buildProjectStats [wRecTs] 0).filesByExtension "ts" = [] ∧
    (buildProjectStats [wRecTs] 0).filesByExtension ".ts" = [wRecTs] := by
  refine ⟨by decide, by decide, ?_⟩
  show (if (".ts" : String) = getFileExtension "a.ts" then ([] : List FileStats) ++ [wRecTs] else []) = [wRecTs]
  decide

end HowLong

namespace HowLong

/-- Folding `acc + g f` over a list equals the initial value plus the sum. -/
theorem foldl_add_map {M : Type} [AddCommMonoid M] (g : FileStats → M) :
    ∀ (l : List FileStats) (a : M),
      l.foldl (fun acc f => acc + g f) a = a + (l.map g).sum := by
  intro l
  induction l with
  | nil => intro a; simp
  | cons f t ih => intro a; simp [ih, add_assoc]

/-- The extension-grouping fold produces, at each key, the initial list
followed by the input records whose extension is that key, in order. -/
theorem byExt_foldl (l : List FileStats) (m : String → List FileStats) (k : String) :
    (l.foldl (fun m f => fun k' => if k' = getFileExtension f.path then m k' ++ [f] else m k') m) k
      = m k ++ l.filter (fun f => decide (getFileExtension f.path = k)) := by
  induction l generalizing m with
  | nil => simp
  | cons f t ih =>
    rw [List.foldl_cons, ih]
    by_cases hk : getFileExtension f.path = k
    · rw [if_pos hk.symm]
      simp [List.filter_cons, hk]
    · rw [if_neg (fun h => hk h.symm)]
      simp [List.filter_cons, hk]

/-- C6 (amended).  `buildProjectStats` groups each record under the key
obtained from the last dot of its path with the dot included (paths without a
dot go to the fixed `"No extension"` bucket); each record lies under exactly
its own key, and the four aggregate totals are the sums over the input. -/
theorem buildProjectStats_grouping (l : List FileStats) (now : Nat) :
    ((buildProjectStats l now).totalFiles = l.length ∧
     (buildProjectStats l now).totalCharacters = (l.map (·.characterCount)).sum ∧
     (buildProjectStats l now).totalLengthInCm = (l.map (·.lengthInCm)).sum ∧
     (buildProjectStats l now).totalSizeInBytes = (l.map (·.fileSize)).sum) ∧
    (∀ k, (buildProjectStats l now).filesByExtension k =
      l.filter (fun f => decide (getFileExtension f.path = k))) ∧
    (∀ f ∈ l,
      f ∈ (buildProjectStats l now).filesByExtension (getFileExtension f.path) ∧
      ∀ k, k ≠ getFileExtension f.path →
        f ∉ (buildProjectStats l now).filesByExtension k) ∧
    (∀ p : String, '.' ∉ p.data → getFileExtension p = "No extension") := by
  have hgrp : ∀ k, (buildProjectStats l now).filesByExtension k =
      l.filter (fun f => decide (getFileExtension f.path = k)) := by
    intro k
    show (l.foldl (fun m f => fun k' => if k' = getFileExtension f.path then m k' ++ [f] else m k')
      (fun _ => [])) k = _
    rw [byExt_foldl]
    exact List.nil_append _
  refine ⟨⟨rfl, ?_, ?_, ?_⟩, hgrp, ?_, ?_⟩
  · show l.foldl (fun acc f => acc + f.characterCount) 0 = _
    rw [foldl_add_map]
    exact zero_add _
  · show l.foldl (fun acc f => acc + f.lengthInCm) 0 = _
    rw [foldl_add_map]
    exact zero_add _
  · show l.foldl (fun acc f => acc + f.fileSize) 0 = _
    rw [foldl_add_map]
    exact zero_add _
  · intro f hf
    constructor
    · rw [hgrp]
      exact List.mem_filter.mpr ⟨hf, by simp⟩
    · intro k hk hmem
      rw [hgrp] at hmem
      exact hk ((of_decide_eq_true (List.mem_filter.mp hmem).2).symm)
  · intro p hp
    unfold getFileExtension
    rw [if_neg hp]

/-- Witness for C6 (amended) at the single record `wRecTs`. -/
theorem buildProjectStats_grouping_witness :
    (buildProjectStats [wRecTs] 0).totalCharacters = ([wRecTs].map (·.characterCount)).sum ∧
    (buildProjectStats [wRecTs] 0).filesByExtension ".ts" =
      [wRecTs].filter (fun f => decide (getFileExtension f.path = ".ts")) ∧
    wRecTs ∈ (buildProjectStats [wRecTs] 0).filesByExtension (getFileExtension wRecTs.path) := by
  have h := buildProjectStats_grouping [wRecTs] 0
  exact ⟨h.1.2.1, h.2.1 ".ts", (h.2.2.1 wRecTs (by simp)).1⟩

end HowLong

namespace HowLong

/-! ### The aggregator: `FileAnalysisService.analyzeWorkspace` -/

/-- `GitIgnoreService.shouldIncludeFile`: accept-all policy. -/
def shouldIncludeFile (_filePath : String) : Bool := true

/-- The mutable state of `FileAnalysisService`: the owned cache plus the
in-flight guard flag. -/
structure ServiceState where
  cache : CacheState
  isAnalyzing : Bool

/-- `FileAnalysisService.analyzeWorkspace`.  The guard throws while a prior
run is in flight; a fresh memoized aggregate is returned untouched; otherwise
the candidate files are filtered, the stale ones re-analyzed (each analysis
also caching its record), the unchanged ones pulled from the cache, and the
aggregate built, memoized and returned with the guard reset.  The 50-file
chunking with `Promise.all` keeps order and is modelled as one fold. -/
def analyzeWorkspace (s : ServiceState) (env : Env) (cm : ℚ) (now : Nat) :
    Except String ProjectStats × ServiceState :=
  if s.isAnalyzing then (.error "Analysis already in progress", s)
  else
    match getCachedProjectStats s.cache now with
    | some cached => (.ok cached, s)
    | none =>
      match env.workspaceFolder with
      | none => (.error "No workspace folder found", { s with isAnalyzing := false })
      | some _ =>
        let textFiles := env.files.filter shouldIncludeFile
        let filesToAnalyze := getModifiedFiles s.cache env.stat textFiles
        let analyzed := filesToAnalyze.foldl
          (fun (acc : List FileStats × CacheState) p =>
            match analyzeFile env p cm with
            | none => acc
            | some r => (acc.1 ++ [r], setCachedFileStats acc.2 p r))
          ([], s.cache)
        let fileStats := textFiles.foldl
          (fun acc p =>
            if p ∈ filesToAnalyze then acc
            else
              match getCachedFileStats analyzed.2 p with
              | some r => acc ++ [r]
              | none => acc)
          analyzed.1
        let projectStats := buildProjectStats fileStats now
        (.ok projectStats,
         { cache := setCachedProjectStats analyzed.2 projectStats now, isAnalyzing := false })

/-- C4.  While a prior run is in flight, a second `analyzeWorkspace` call
fails with the analysis-in-progress error and leaves the service state
exactly as it was, so the in-flight run's eventual result is unaffected. -/
theorem analyzeWorkspace_inFlight (s : ServiceState) (env : Env) (cm : ℚ) (now : Nat)
    (h : s.isAnalyzing = true) :
    analyzeWorkspace s env cm now = (.error "Analysis already in progress", s) := by
  unfold analyzeWorkspace
  rw [if_pos h]

/-- A service state with the in-flight guard set. -/
def wBusy : ServiceState := { cache := wCache, isAnalyzing := true }

/-- Witness for C4: the busy state rejects the call and is unchanged. -/
theorem analyzeWorkspace_inFlight_witness :
    analyzeWorkspace wBusy wEnv2 1 0 = (.error "Analysis already in progress", wBusy) :=
  analyzeWorkspace_inFlight wBusy wEnv2 1 0 rfl

/-- When the memoized lookup answers, the aggregate really is stored. -/
theorem getCachedProjectStats_some (s : CacheState) (now : Nat) (a : ProjectStats)
    (h : getCachedProjectStats s now = some a) : s.projectStatsCache = some a := by
  unfold getCachedProjectStats at h
  split at h
  · exact h
  · cases h

/-- An `ok` result of `analyzeWorkspace` leaves the guard cleared and the
returned aggregate memoized. -/
theorem analyzeWorkspace_ok_state (s : ServiceState) (env : Env) (cm : ℚ) (now : Nat)
    (stats : ProjectStats) (s1 : ServiceState)
    (h : analyzeWorkspace s env cm now = (.ok stats, s1)) :
    s1.isAnalyzing = false ∧ s1.cache.projectStatsCache = some stats := by
  unfold analyzeWorkspace at h
  by_cases hb : s.isAnalyzing
  · rw [if_pos hb] at h
    simp at h
  · rw [if_neg hb] at h
    rcases hc : getCachedProjectStats s.cache now with _ | cached <;> rw [hc] at h
    · rcases hw : env.workspaceFolder with _ | w <;> rw [hw] at h
      · simp at h
      · rw [Prod.mk.injEq] at h
        obtain ⟨h1, h2⟩ := h
        injection h1 with h1
        subst h2
        subst h1
        exact ⟨rfl, rfl⟩
    · rw [Prod.mk.injEq] at h
      obtain ⟨h1, h2⟩ := h
      injection h1 with h1
      subst h2
      subst h1
      exact ⟨by revert hb; cases s.isAnalyzing <;> simp,
        getCachedProjectStats_some s.cache now cached hc⟩

/-- C7.  If a run returns `ok stats`, a second call on the resulting state,
with no file-system change in between and within the freshness window,
returns the identical `ProjectStats` value from the memoized cache and leaves
the state unchanged. -/
theorem analyzeWorkspace_idempotent (s s1 : ServiceState) (env : Env) (cm : ℚ)
    (now1 now2 : Nat) (stats : ProjectStats)
    (h1 : analyzeWorkspace s env cm now1 = (.ok stats, s1))
    (hts : 0 < s1.cache.cacheTimestamp)
    (hfresh : now2 - s1.cache.cacheTimestamp < CACHE_DURATION) :
    analyzeWorkspace s1 env cm now2 = (.ok stats, s1) := by
  obtain ⟨hA, hP⟩ := analyzeWorkspace_ok_state s env cm now1 stats s1 h1
  have hv : isCacheValid s1.cache now2 = true := by
    unfold isCacheValid
    simp [hts, hfresh]
  have hget : getCachedProjectStats s1.cache now2 = some stats := by
    unfold getCachedProjectStats
    rw [hv, if_pos rfl, hP]
  unfold analyzeWorkspace
  rw [hA, if_neg (by simp), hget]

end HowLong

namespace HowLong

/-- An environment with a single 4-character text file `"a.txt"`. -/
def wEnvW : Env :=
  { workspaceFolder := some "w",
    stat := fun _ => some { size := 4, mtime := 5 },
    decoded := fun _ => some 4,
    rel := id, files := ["a.txt"] }

/-- A fresh service state: empty cache, guard clear. -/
def wS0 : ServiceState :=
  { cache := { projectStatsCache := none, fileStatsCache := fun _ => none, cacheTimestamp := 0 },
    isAnalyzing := false }

/-- The aggregate computed by the first run at time 1. -/
def wStats1 : ProjectStats :=
  (analyzeWorkspace wS0 wEnvW 1 1).1.toOption.getD emptyProjectStats

/-- The service state after the first run at time 1. -/
def wS1 : ServiceState := (analyzeWorkspace wS0 wEnvW 1 1).2

/-- Witness for C7: after a real first run at time 1, a second call at time 2
returns the identical aggregate and state. -/
theorem analyzeWorkspace_idempotent_witness :
    analyzeWorkspace wS1 wEnvW 1 2 = (.ok wStats1, wS1) :=
  analyzeWorkspace_idempotent wS0 wS1 wEnvW 1 1 2 wStats1 rfl (by decide) (by decide)

end HowLong

namespace HowLong

/-! ### Path splitting and joining

`buildFolderStructure` works with `relativePath.split('/')` and
`parts.join('/')`.  Both are modelled over the character list of the string:
JS `split` with a one-character separator cuts at every occurrence
(`""` gives `[""]`, `"a/"` gives `["a",""]`), and `join` interleaves the
separator. -/

/-- JS `String.prototype.split(sep)` over the character list. -/
def splitChAux (sep : Char) : List Char → List (List Char)
  | [] => [[]]
  | c :: cs =>
    if c = sep then [] :: splitChAux sep cs
    else
      match splitChAux sep cs with
      | [] => [[c]]
      | seg :: rest => (c :: seg) :: rest

/-- JS `Array.prototype.join(sep)` over character lists. -/
def joinCh (sep : Char) : List (List Char) → List Char
  | [] => []
  | [x] => x
  | x :: y :: xs => x ++ sep :: joinCh sep (y :: xs)

theorem splitChAux_ne_nil (sep : Char) (l : List Char) : splitChAux sep l ≠ [] := by
  induction l with
  | nil => simp [splitChAux]
  | cons c cs ih =>
    unfold splitChAux
    by_cases h : c = sep
    · simp [h]
    · rw [if_neg h]
      rcases hs : splitChAux sep cs with _ | ⟨seg, rest⟩ <;> simp

theorem not_mem_of_mem_splitChAux (sep : Char) (l : List Char) :
    ∀ x ∈ splitChAux sep l, sep ∉ x := by
  induction l with
  | nil =>
    intro x hx
    unfold splitChAux at hx
    rw [List.mem_singleton] at hx
    subst hx
    simp
  | cons c cs ih =>
    intro x hx
    unfold splitChAux at hx
    by_cases h : c = sep
    · rw [if_pos h] at hx
      rcases List.mem_cons.mp hx with rfl | hx
      · simp
      · exact ih x hx
    · rw [if_neg h] at hx
      rcases hs : splitChAux sep cs with _ | ⟨seg, rest⟩ <;> rw [hs] at hx
      · exact absurd hs (splitChAux_ne_nil sep cs)
      · rcases List.mem_cons.mp hx with rfl | hx
        · intro hmem
          rcases List.mem_cons.mp hmem with rfl | hmem
          · exact h rfl
          · exact ih seg (hs ▸ List.mem_cons_self seg rest) hmem
        · exact ih x (hs ▸ List.mem_cons_of_mem seg hx)

theorem splitChAux_append (sep : Char) (x t : List Char) (hx : sep ∉ x) :
    splitChAux sep (x ++ sep :: t) = x :: splitChAux sep t := by
  induction x with
  | nil =>
    show splitChAux sep (sep :: t) = [] :: splitChAux sep t
    rw [splitChAux, if_pos rfl]
  | cons c x' ih =>
    have hc : c ≠ sep := fun h => hx (h ▸ List.mem_cons_self c x')
    have hx' : sep ∉ x' := fun h => hx (List.mem_cons_of_mem c h)
    show splitChAux sep (c :: (x' ++ sep :: t)) = (c :: x') :: splitChAux sep t
    rw [splitChAux, if_neg hc, ih hx']

theorem splitChAux_of_not_mem (sep : Char) (x : List Char) (hx : sep ∉ x) :
    splitChAux sep x = [x] := by
  induction x with
  | nil => rfl
  | cons c x' ih =>
    have hc : c ≠ sep := fun h => hx (h ▸ List.mem_cons_self c x')
    have hx' : sep ∉ x' := fun h => hx (List.mem_cons_of_mem c h)
    unfold splitChAux
    rw [if_neg hc, ih hx']

theorem splitChAux_joinCh (sep : Char) :
    ∀ l : List (List Char), l ≠ [] → (∀ x ∈ l, sep ∉ x) →
      splitChAux sep (joinCh sep l) = l
  | [], h, _ => absurd rfl h
  | [x], _, hsep => by
    show splitChAux sep x = [x]
    exact splitChAux_of_not_mem sep x (hsep x (List.mem_singleton_self x))
  | x :: y :: xs, _, hsep => by
    show splitChAux sep (x ++ sep :: joinCh sep (y :: xs)) = x :: (y :: xs)
    rw [splitChAux_append sep x _ (hsep x (List.mem_cons_self x _))]
    rw [splitChAux_joinCh sep (y :: xs) (by simp)
      (fun z hz => hsep z (List.mem_cons_of_mem x hz))]

theorem joinCh_splitChAux (sep : Char) (l : List Char) :
    joinCh sep (splitChAux sep l) = l := by
  induction l with
  | nil => rfl
  | cons c cs ih =>
    unfold splitChAux
    by_cases h : c = sep
    · rw [if_pos h]
      rcases hs : splitChAux sep cs with _ | ⟨z, zs⟩
      · exact absurd hs (splitChAux_ne_nil sep cs)
      · show joinCh sep ([] :: z :: zs) = c :: cs
        show [] ++ sep :: joinCh sep (z :: zs) = c :: cs
        rw [hs] at ih
        rw [List.nil_append, ih, h]
    · rw [if_neg h]
      rcases hs : splitChAux sep cs with _ | ⟨seg, rest⟩
      · exact absurd hs (splitChAux_ne_nil sep cs)
      · rw [hs] at ih
        rcases rest with _ | ⟨r, rs⟩
        · show joinCh sep [c :: seg] = c :: cs
          show c :: seg = c :: cs
          have : joinCh sep [seg] = cs := ih
          rw [← this]
          rfl
        · show joinCh sep ((c :: seg) :: r :: rs) = c :: cs
          show (c :: seg) ++ sep :: joinCh sep (r :: rs) = c :: cs
          have : seg ++ sep :: joinCh sep (r :: rs) = cs := ih
          rw [List.cons_append, this]

end HowLong

namespace HowLong

/-- `relativePath.split('/')` as a list of segment strings. -/
def pathParts (s : String) : List String := (splitChAux '/' s.data).map String.mk

/-- `parts.join('/')`. -/
def joinParts (l : List String) : String := String.mk (joinCh '/' (l.map String.data))

/-- The depth of a path key: the number of `/`-separated segments. -/
def depthOf (p : String) : Nat := (pathParts p).length

/-- `pathParts.slice(0, -1).join('/')`: the parent path of a key. -/
def parentOf (p : String) : String := joinParts (pathParts p).dropLast

theorem string_mk_data (s : String) : String.mk s.data = s := rfl

theorem map_mk_data (l : List String) : l.map (fun y => String.mk y.data) = l := by
  induction l with
  | nil => rfl
  | cons x xs ih => rw [List.map_cons, string_mk_data, ih]

theorem pathParts_ne_nil (s : String) : pathParts s ≠ [] := by
  unfold pathParts
  intro h
  exact splitChAux_ne_nil '/' s.data (List.map_eq_nil_iff.mp h)

theorem slash_not_mem_pathParts (s : String) : ∀ x ∈ pathParts s, '/' ∉ x.data := by
  intro x hx
  obtain ⟨y, hy, rfl⟩ := List.mem_map.mp hx
  exact not_mem_of_mem_splitChAux '/' s.data y hy

theorem pathParts_joinParts (l : List String) (hl : l ≠ [])
    (hsep : ∀ x ∈ l, '/' ∉ x.data) : pathParts (joinParts l) = l := by
  unfold pathParts joinParts
  rw [show (String.mk (joinCh '/' (l.map String.data))).data
        = joinCh '/' (l.map String.data) from rfl]
  rw [splitChAux_joinCh '/' (l.map String.data)
    (by intro h; exact hl (List.map_eq_nil_iff.mp h))
    (by
      intro x hx
      obtain ⟨y, hy, rfl⟩ := List.mem_map.mp hx
      exact hsep y hy)]
  rw [List.map_map]
  have hcomp : (String.mk ∘ String.data) = id := funext fun _ => rfl
  rw [hcomp, List.map_id]

theorem joinParts_pathParts (s : String) : joinParts (pathParts s) = s := by
  unfold pathParts joinParts
  rw [List.map_map]
  have hcomp : (String.data ∘ String.mk) = id := funext fun _ => rfl
  rw [hcomp, List.map_id, joinCh_splitChAux]

/-- `joinParts` is injective on nonempty lists of slash-free segments. -/
theorem joinParts_inj (l₁ l₂ : List String) (h₁ : l₁ ≠ []) (h₂ : l₂ ≠ [])
    (hs₁ : ∀ x ∈ l₁, '/' ∉ x.data) (hs₂ : ∀ x ∈ l₂, '/' ∉ x.data)
    (h : joinParts l₁ = joinParts l₂) : l₁ = l₂ := by
  have := congrArg pathParts h
  rwa [pathParts_joinParts l₁ h₁ hs₁, pathParts_joinParts l₂ h₂ hs₂] at this

end HowLong

namespace HowLong

/-! ### The folder map of `buildFolderStructure`
(`src/tree-view/projectStatsProvider.ts`)

The JS code builds a `Map<string, FolderStats>` of mutable folder objects,
adds each file to its immediate parent, then — iterating the entries sorted
deepest-first — pushes each non-root folder object into its parent's
`subfolders` and adds its totals to the parent's.  Because the map holds
object references, the tree observed at the end consists of the final
states of these objects; the model therefore keeps subfolders by key
(`subfolderPaths`) in a path-keyed arena and materializes the owned tree
from the final arena. -/

/-- A folder object as held in the `folderMap` during construction.  The JS
object's `path` field always equals its map key and is re-attached at
materialization. -/
structure FolderAcc where
  name : String
  totalFiles : Nat
  totalCharacters : Nat
  totalLengthInCm : ℚ
  totalSizeInBytes : Nat
  files : List FileStats
  subfolderPaths : List String
deriving DecidableEq, Repr

/-- The JS `Map<string, _>` with insertion order. -/
abbrev FolderMap := List (String × FolderAcc)

/-- `map.get(k)`. -/
def mfind : FolderMap → String → Option FolderAcc
  | [], _ => none
  | e :: rest, k => if e.1 = k then some e.2 else mfind rest k

/-- `map.set(k, v)`: updates the existing entry in place, else appends. -/
def mset : FolderMap → String → FolderAcc → FolderMap
  | [], k, v => [(k, v)]
  | e :: rest, k, v => if e.1 = k then (k, v) :: rest else e :: mset rest k v

/-- The keys of the map, in insertion order. -/
def mkeys (m : FolderMap) : List String := m.map (·.1)

/-- `folder.files.push(file)` plus the four `+=` total updates. -/
def addFileTotals (fo : FolderAcc) (f : FileStats) : FolderAcc :=
  { fo with files := fo.files ++ [f], totalFiles := fo.totalFiles + 1,
            totalCharacters := fo.totalCharacters + f.characterCount,
            totalLengthInCm := fo.totalLengthInCm + f.lengthInCm,
            totalSizeInBytes := fo.totalSizeInBytes + f.fileSize }

/-- A freshly created folder entry (all totals zero, no files, no children). -/
def newFolder (folderName : String) : FolderAcc :=
  { name := folderName, totalFiles := 0, totalCharacters := 0, totalLengthInCm := 0,
    totalSizeInBytes := 0, files := [], subfolderPaths := [] }

/-- One iteration of the folder-creating loop: ensure the ancestor at prefix
length `i + 1` exists (`if (!folderMap.has(currentPath)) set(...)`). -/
def ensureStep (parts : List String) (m : FolderMap) (i : Nat) : FolderMap :=
  let currentPath := joinParts (parts.take (i + 1))
  if (mfind m currentPath).isSome then m
  else mset m currentPath (newFolder (parts.getD i ""))

/-- The `for (let i = 0; i < pathParts.length - 1; i++)` loop creating the
ancestor folders of a file. -/
def ensureFolders (parts : List String) (m : FolderMap) : FolderMap :=
  (List.range (parts.length - 1)).foldl (ensureStep parts) m

/-- One file of the first pass: root-level files (a single path segment) are
collected; any other file has its ancestor folders created and is pushed onto
its immediate parent (`if (parentPath && folderMap.has(parentPath))`, where
`parentPath` truthiness is `parentPath ≠ ""`).  The JS locals `pathParts` and
`parentPath` are inlined (`parentOf` is exactly `pathParts.slice(0, -1).join('/')`). -/
def passOneStep (st : FolderMap × List FileStats) (f : FileStats) :
    FolderMap × List FileStats :=
  if (pathParts f.relativePath).length = 1 then (st.1, st.2 ++ [f])
  else if parentOf f.relativePath = "" then
    (ensureFolders (pathParts f.relativePath) st.1, st.2)
  else
    match mfind (ensureFolders (pathParts f.relativePath) st.1) (parentOf f.relativePath) with
    | some fo =>
      (mset (ensureFolders (pathParts f.relativePath) st.1) (parentOf f.relativePath)
        (addFileTotals fo f), st.2)
    | none => (ensureFolders (pathParts f.relativePath) st.1, st.2)

/-- The first pass of `buildFolderStructure` over all files. -/
def passOne (files : List FileStats) : FolderMap × List FileStats :=
  files.foldl passOneStep ([], [])

/-- One folder of the second pass: a root folder's key is collected; any
other folder is appended (by key) to its parent's subfolders and its current
totals are added to the parent's. -/
def passTwoStep (st : FolderMap × List String) (p : String) : FolderMap × List String :=
  match mfind st.1 p with
  | none => st
  | some folder =>
    if depthOf p = 1 then (st.1, st.2 ++ [p])
    else
      match mfind st.1 (parentOf p) with
      | none => st
      | some parent =>
        (mset st.1 (parentOf p)
          { parent with subfolderPaths := parent.subfolderPaths ++ [p],
                        totalFiles := parent.totalFiles + folder.totalFiles,
                        totalCharacters := parent.totalCharacters + folder.totalCharacters,
                        totalLengthInCm := parent.totalLengthInCm + folder.totalLengthInCm,
                        totalSizeInBytes := parent.totalSizeInBytes + folder.totalSizeInBytes },
         st.2)

/-- `Array.from(folderMap.entries()).sort((a, b) => depthB - depthA)`: a
stable sort putting deeper keys first.  JS `Array.prototype.sort` is stable,
and any two stable sorts under the same total preorder coincide, so
insertion sort models it exactly. -/
def sortedFolderKeys (m : FolderMap) : List String :=
  (m.insertionSort (fun a b => depthOf b.1 ≤ depthOf a.1)).map (·.1)

/-- The second pass of `buildFolderStructure`, deepest folders first. -/
def passTwo (m : FolderMap) : FolderMap × List String :=
  (sortedFolderKeys m).foldl passTwoStep (m, [])

/-- `FolderStats` from `src/models/fileStats.ts` as used by the provider:
the recursive folder tree handed to the view. -/
inductive FolderStats where
  | mk (path name : String) (totalFiles totalCharacters : Nat) (totalLengthInCm : ℚ)
      (totalSizeInBytes : Nat) (files : List FileStats) (subfolders : List FolderStats)

def FolderStats.path : FolderStats → String
  | .mk p _ _ _ _ _ _ _ => p

def FolderStats.name : FolderStats → String
  | .mk _ n _ _ _ _ _ _ => n

def FolderStats.totalFiles : FolderStats → Nat
  | .mk _ _ tf _ _ _ _ _ => tf

def FolderStats.totalCharacters : FolderStats → Nat
  | .mk _ _ _ tc _ _ _ _ => tc

def FolderStats.totalLengthInCm : FolderStats → ℚ
  | .mk _ _ _ _ tl _ _ _ => tl

def FolderStats.totalSizeInBytes : FolderStats → Nat
  | .mk _ _ _ _ _ ts _ _ => ts

def FolderStats.files : FolderStats → List FileStats
  | .mk _ _ _ _ _ _ fs _ => fs

def FolderStats.subfolders : FolderStats → List FolderStats
  | .mk _ _ _ _ _ _ _ subs => subs

/-- Materialization of the arena into owned trees, following subfolder keys.
`fuel` bounds the recursion depth; `buildFolderStructure` passes one more
than the deepest key, which covers every chain since a child key is strictly
deeper than its parent. -/
def materialize (m : FolderMap) : Nat → String → Option FolderStats
  | 0, _ => none
  | fuel + 1, p =>
    match mfind m p with
    | none => none
    | some fo =>
      some (.mk p fo.name fo.totalFiles fo.totalCharacters fo.totalLengthInCm
        fo.totalSizeInBytes fo.files (fo.subfolderPaths.filterMap (materialize m fuel)))

/-- The deepest key depth of the arena. -/
def maxDepthKeys (m : FolderMap) : Nat := ((mkeys m).map depthOf).foldr max 0

/-- `rootFolders.sort((a, b) => a.name.toLowerCase().localeCompare(b.name.toLowerCase()))`,
with the locale comparison modelled by code-point order on the lowercased
names (a stable sort either way). -/
def sortFoldersByName (l : List FolderStats) : List FolderStats :=
  l.insertionSort (fun a b => a.name.toLower ≤ b.name.toLower)

/-- `ProjectStatsProvider.buildFolderStructure`: returns the root-level files
and the alphabetically sorted root folder trees. -/
def buildFolderStructure (files : List FileStats) : List FileStats × List FolderStats :=
  let firstPass := passOne files
  let secondPass := passTwo firstPass.1
  let rootFolders := secondPass.2.filterMap
    (materialize secondPass.1 (maxDepthKeys secondPass.1 + 1))
  (firstPass.2, sortFoldersByName rootFolders)

mutual

/-- A folder tree node together with all its descendant nodes. -/
def FolderStats.collect : FolderStats → List FolderStats
  | .mk p n tf tc tl ts fs subs => .mk p n tf tc tl ts fs subs :: collectList subs

/-- All nodes of a forest. -/
def collectList : List FolderStats → List FolderStats
  | [] => []
  | f :: rest => f.collect ++ collectList rest

end

end HowLong

namespace HowLong

/-! ### Association-list map lemmas -/

theorem mfind_mset_self (m : FolderMap) (k : String) (v : FolderAcc) :
    mfind (mset m k v) k = some v := by
  induction m with
  | nil => simp [mset, mfind]
  | cons e rest ih =>
    unfold mset
    by_cases h : e.1 = k
    · rw [if_pos h]
      simp [mfind]
    · rw [if_neg h]
      unfold mfind
      rw [if_neg h]
      exact ih

theorem mfind_mset_ne (m : FolderMap) (k k' : String) (v : FolderAcc) (h : k' ≠ k) :
    mfind (mset m k v) k' = mfind m k' := by
  induction m with
  | nil =>
    simp only [mset, mfind]
    rw [if_neg (fun hh => h hh.symm)]
  | cons e rest ih =>
    unfold mset
    by_cases he : e.1 = k
    · rw [if_pos he]
      unfold mfind
      rw [if_neg (fun hh => h hh.symm), if_neg (he ▸ fun hh => h hh.symm)]
    · rw [if_neg he]
      unfold mfind
      by_cases he' : e.1 = k'
      · rw [if_pos he', if_pos he']
      · rw [if_neg he', if_neg he']
        exact ih

theorem mem_mkeys_iff_mfind (m : FolderMap) (k : String) :
    k ∈ mkeys m ↔ (mfind m k).isSome = true := by
  induction m with
  | nil => simp [mkeys, mfind]
  | cons e rest ih =>
    unfold mkeys mfind
    by_cases h : e.1 = k
    · simp [h]
    · rw [if_neg h]
      rw [List.map_cons, List.mem_cons]
      unfold mkeys at ih
      simp only [ih]
      constructor
      · rintro (rfl | hh)
        · exact absurd rfl h
        · exact hh
      · exact Or.inr

theorem mfind_eq_none_of_not_mem (m : FolderMap) (k : String) (h : k ∉ mkeys m) :
    mfind m k = none := by
  rcases hf : mfind m k with _ | fo
  · rfl
  · exact absurd ((mem_mkeys_iff_mfind m k).mpr (by rw [hf]; rfl)) h

theorem mkeys_mset_of_mem (m : FolderMap) (k : String) (v : FolderAcc)
    (h : k ∈ mkeys m) : mkeys (mset m k v) = mkeys m := by
  induction m with
  | nil => simp [mkeys] at h
  | cons e rest ih =>
    unfold mset
    by_cases he : e.1 = k
    · rw [if_pos he]
      unfold mkeys
      rw [List.map_cons, List.map_cons, he]
    · rw [if_neg he]
      unfold mkeys
      rw [List.map_cons, List.map_cons]
      unfold mkeys at ih
      rw [ih]
      unfold mkeys at h
      rw [List.map_cons, List.mem_cons] at h
      rcases h with rfl | h
      · exact absurd rfl he
      · exact h

theorem mkeys_mset_of_not_mem (m : FolderMap) (k : String) (v : FolderAcc)
    (h : k ∉ mkeys m) : mkeys (mset m k v) = mkeys m ++ [k] := by
  induction m with
  | nil => simp [mset, mkeys]
  | cons e rest ih =>
    unfold mkeys at h
    rw [List.map_cons, List.mem_cons] at h
    push_neg at h
    unfold mset
    rw [if_neg (fun he => h.1 he.symm)]
    unfold mkeys
    rw [List.map_cons, List.map_cons, List.cons_append]
    unfold mkeys at ih
    rw [ih h.2]

end HowLong

namespace HowLong

/-! ### Path prefix lemmas -/

theorem pathParts_join_take (l : List String) (hsf : ∀ x ∈ l, '/' ∉ x.data) (i : Nat)
    (hi : i + 1 ≤ l.length) : pathParts (joinParts (l.take (i + 1))) = l.take (i + 1) := by
  apply pathParts_joinParts
  · intro h
    have hlen := congrArg List.length h
    rw [List.length_take] at hlen
    simp only [List.length_nil] at hlen
    omega
  · intro x hx
    exact hsf x (List.mem_of_mem_take hx)

theorem depthOf_join_take (l : List String) (hsf : ∀ x ∈ l, '/' ∉ x.data) (i : Nat)
    (hi : i + 1 ≤ l.length) : depthOf (joinParts (l.take (i + 1))) = i + 1 := by
  unfold depthOf
  rw [pathParts_join_take l hsf i hi, List.length_take]
  omega

theorem dropLast_take_succ (l : List String) (i : Nat) (hi : i + 1 ≤ l.length) :
    (l.take (i + 1)).dropLast = l.take i := by
  rw [List.dropLast_eq_take, List.length_take, List.take_take]
  congr 1
  omega

theorem parentOf_join_take (l : List String) (hsf : ∀ x ∈ l, '/' ∉ x.data) (i : Nat)
    (hi : i + 1 ≤ l.length) :
    parentOf (joinParts (l.take (i + 1))) = joinParts (l.take i) := by
  unfold parentOf
  rw [pathParts_join_take l hsf i hi, dropLast_take_succ l i hi]

theorem one_le_depthOf (p : String) : 1 ≤ depthOf p := by
  unfold depthOf
  rcases h : pathParts p with _ | ⟨x, xs⟩
  · exact absurd h (pathParts_ne_nil p)
  · simp

theorem depthOf_parentOf (q : String) (h : 2 ≤ depthOf q) :
    depthOf (parentOf q) = depthOf q - 1 := by
  unfold parentOf depthOf
  rw [pathParts_joinParts (pathParts q).dropLast
    (by
      intro hnil
      have := congrArg List.length hnil
      rw [List.length_dropLast] at this
      unfold depthOf at h
      simp at this
      omega)
    (fun x hx => slash_not_mem_pathParts q x (List.mem_of_mem_dropLast hx))]
  rw [List.length_dropLast]

theorem pathParts_parentOf (q : String) (h : 2 ≤ depthOf q) :
    pathParts (parentOf q) = (pathParts q).dropLast := by
  unfold parentOf
  rw [pathParts_joinParts (pathParts q).dropLast
    (by
      intro hnil
      have := congrArg List.length hnil
      rw [List.length_dropLast] at this
      unfold depthOf at h
      simp at this
      omega)
    (fun x hx => slash_not_mem_pathParts q x (List.mem_of_mem_dropLast hx))]

end HowLong

namespace HowLong

/-- Unfolding one iteration of the folder-creating loop. -/
theorem ensureStep_eq (parts : List String) (m : FolderMap) (i : Nat) :
    ensureStep parts m i =
      if (mfind m (joinParts (parts.take (i + 1)))).isSome then m
      else mset m (joinParts (parts.take (i + 1))) (newFolder (parts.getD i "")) := rfl

/-- Characterization of `n` iterations of the folder-creating loop: existing
entries are preserved, every created key is a proper prefix-join of `parts`
with an all-zero folder, all the first `n` prefix keys exist afterwards, and
key distinctness is preserved. -/
theorem ensure_aux (parts : List String) (m : FolderMap) (n : Nat) :
    (∀ q fo, mfind ((List.range n).foldl (ensureStep parts) m) q = some fo →
       mfind m q = some fo ∨
         (mfind m q = none ∧ ∃ i, i < n ∧ q = joinParts (parts.take (i + 1)) ∧
            fo = newFolder (parts.getD i ""))) ∧
    (∀ q fo, mfind m q = some fo →
       mfind ((List.range n).foldl (ensureStep parts) m) q = some fo) ∧
    (∀ i, i < n →
       (mfind ((List.range n).foldl (ensureStep parts) m)
         (joinParts (parts.take (i + 1)))).isSome = true) ∧
    (∀ k, k ∈ mkeys ((List.range n).foldl (ensureStep parts) m) ↔
       k ∈ mkeys m ∨ ∃ i, i < n ∧ k = joinParts (parts.take (i + 1))) ∧
    ((mkeys m).Nodup → (mkeys ((List.range n).foldl (ensureStep parts) m)).Nodup) := by
  induction n with
  | zero =>
    refine ⟨fun q fo h => Or.inl h, fun q fo h => h, fun i hi => absurd hi (by omega),
      fun k => ?_, fun h => h⟩
    simp
  | succ n ihn =>
    obtain ⟨ih1, ih2, ih3, ih4, ih5⟩ := ihn
    rw [List.range_succ, List.foldl_append, List.foldl_cons, List.foldl_nil, ensureStep_eq]
    by_cases hs :
        (mfind ((List.range n).foldl (ensureStep parts) m)
          (joinParts (parts.take (n + 1)))).isSome = true
    · rw [if_pos hs]
      refine ⟨?_, ih2, ?_, ?_, ih5⟩
      · intro q fo h
        rcases ih1 q fo h with h' | ⟨hnone, i, hi, hq, hfo⟩
        · exact Or.inl h'
        · exact Or.inr ⟨hnone, i, by omega, hq, hfo⟩
      · intro i hi
        rcases Nat.lt_succ_iff_lt_or_eq.mp hi with hi' | hieq
        · exact ih3 i hi'
        · subst hieq
          exact hs
      · intro k
        rw [ih4 k]
        constructor
        · rintro (hk | ⟨i, hi, hk⟩)
          · exact Or.inl hk
          · exact Or.inr ⟨i, by omega, hk⟩
        · rintro (hk | ⟨i, hi, hk⟩)
          · exact Or.inl hk
          · rcases Nat.lt_succ_iff_lt_or_eq.mp hi with hi' | hieq
            · exact Or.inr ⟨i, hi', hk⟩
            · subst hieq
              subst hk
              exact (ih4 _).mp ((mem_mkeys_iff_mfind _ _).mpr hs)
    · rw [if_neg hs]
      have hnone : mfind ((List.range n).foldl (ensureStep parts) m)
          (joinParts (parts.take (n + 1))) = none := by
        rcases hf : mfind ((List.range n).foldl (ensureStep parts) m)
            (joinParts (parts.take (n + 1))) with _ | fo
        · rfl
        · exact absurd (by rw [hf]; rfl) hs
      have hnotmem : joinParts (parts.take (n + 1))
          ∉ mkeys ((List.range n).foldl (ensureStep parts) m) := by
        rw [mem_mkeys_iff_mfind, hnone]
        simp
      refine ⟨?_, ?_, ?_, ?_, ?_⟩
      · intro q fo h
        by_cases hq : q = joinParts (parts.take (n + 1))
        · rw [hq, mfind_mset_self] at h
          have hmq : mfind m q = none := by
            rcases hmq : mfind m q with _ | fo'
            · rfl
            · have h2 := ih2 q fo' hmq
              rw [hq] at h2
              rw [h2] at hnone
              cases hnone
          refine Or.inr ⟨hmq, n, by omega, hq, ?_⟩
          injection h with h
          exact h.symm
        · rw [mfind_mset_ne _ _ q _ hq] at h
          rcases ih1 q fo h with h' | ⟨hn, i, hi, hq', hfo⟩
          · exact Or.inl h'
          · exact Or.inr ⟨hn, i, by omega, hq', hfo⟩
      · intro q fo h
        have h' := ih2 q fo h
        have hq : q ≠ joinParts (parts.take (n + 1)) := by
          intro hq
          rw [hq] at h'
          rw [h'] at hnone
          cases hnone
        rw [mfind_mset_ne _ _ q _ hq]
        exact h'
      · intro i hi
        rcases Nat.lt_succ_iff_lt_or_eq.mp hi with hi' | hieq
        · by_cases hq : joinParts (parts.take (i + 1)) = joinParts (parts.take (n + 1))
          · rw [hq, mfind_mset_self]
            rfl
          · rw [mfind_mset_ne _ _ _ _ hq]
            exact ih3 i hi'
        · subst hieq
          rw [mfind_mset_self]
          rfl
      · intro k
        rw [mkeys_mset_of_not_mem _ _ _ hnotmem, List.mem_append, ih4 k,
          List.mem_singleton]
        constructor
        · rintro ((hk | ⟨i, hi, hk⟩) | hk)
          · exact Or.inl hk
          · exact Or.inr ⟨i, by omega, hk⟩
          · exact Or.inr ⟨n, by omega, hk⟩
        · rintro (hk | ⟨i, hi, hk⟩)
          · exact Or.inl (Or.inl hk)
          · rcases Nat.lt_succ_iff_lt_or_eq.mp hi with hi' | hieq
            · exact Or.inl (Or.inr ⟨i, hi', hk⟩)
            · subst hieq
              exact Or.inr hk
      · intro h
        rw [mkeys_mset_of_not_mem _ _ _ hnotmem]
        exact List.Nodup.append (ih5 h) (List.nodup_singleton _)
          (by
            intro a ha hb
            rw [List.mem_singleton] at hb
            subst hb
            exact hnotmem ha)

end HowLong

namespace HowLong

/-! ### The first-pass invariant -/

/-- `phiB f q`: the first pass records `f` as a direct file of folder `q` —
`f` is not root-level, its parent path is `q`, and that parent path is a
truthy (nonempty) string. -/
def phiB (f : FileStats) (q : String) : Bool :=
  decide (1 < (pathParts f.relativePath).length) &&
    decide (parentOf f.relativePath = q) && decide (¬parentOf f.relativePath = "")

theorem filter_append_single {α : Type} (l : List α) (p : α → Bool) (a : α) :
    (l ++ [a]).filter p = l.filter p ++ (if p a then [a] else []) := by
  rw [List.filter_append]
  congr 1
  rcases h : p a with _ | _ <;> simp [List.filter_singleton, h]

/-- Invariant of the first pass of `buildFolderStructure` after `processed`
files: the root list collects exactly the single-segment files; each folder's
direct files are exactly the processed files whose parent it is, with totals
summing them; no subfolder links exist yet; keys are distinct and closed
under taking parents. -/
structure PassOneInv (processed : List FileStats) (m : FolderMap)
    (roots : List FileStats) : Prop where
  roots_eq : roots =
    processed.filter (fun f => decide ((pathParts f.relativePath).length = 1))
  files_char : ∀ q fo, mfind m q = some fo →
    fo.files = processed.filter (fun f => phiB f q)
  none_char : ∀ q, mfind m q = none →
    processed.filter (fun f => phiB f q) = []
  sub_nil : ∀ q fo, mfind m q = some fo → fo.subfolderPaths = []
  tot_files : ∀ q fo, mfind m q = some fo → fo.totalFiles = fo.files.length
  tot_chars : ∀ q fo, mfind m q = some fo →
    fo.totalCharacters = (fo.files.map (·.characterCount)).sum
  tot_len : ∀ q fo, mfind m q = some fo →
    fo.totalLengthInCm = (fo.files.map (·.lengthInCm)).sum
  tot_size : ∀ q fo, mfind m q = some fo →
    fo.totalSizeInBytes = (fo.files.map (·.fileSize)).sum
  parent_mem : ∀ k ∈ mkeys m, 2 ≤ depthOf k → parentOf k ∈ mkeys m
  keys_nodup : (mkeys m).Nodup

end HowLong

namespace HowLong

/-- Creating the ancestor folders of a path preserves the first-pass
invariant. -/
theorem PassOneInv.ensure {processed : List FileStats} {m : FolderMap}
    {roots : List FileStats} (inv : PassOneInv processed m roots) (s : String) :
    PassOneInv processed (ensureFolders (pathParts s) m) roots := by
  obtain ⟨e1, e2, e3, e4, e5⟩ :=
    ensure_aux (pathParts s) m ((pathParts s).length - 1)
  have hsf := slash_not_mem_pathParts s
  refine ⟨inv.roots_eq, ?_, ?_, ?_, ?_, ?_, ?_, ?_, ?_, e5 inv.keys_nodup⟩
  · intro q fo h
    rcases e1 q fo h with h' | ⟨hnone, i, hi, hq, hfo⟩
    · exact inv.files_char q fo h'
    · rw [hfo]
      exact (inv.none_char q hnone).symm
  · intro q h
    unfold ensureFolders at h
    rcases hm : mfind m q with _ | fo'
    · exact inv.none_char q hm
    · rw [e2 q fo' hm] at h
      cases h
  · intro q fo h
    rcases e1 q fo h with h' | ⟨_, i, hi, hq, hfo⟩
    · exact inv.sub_nil q fo h'
    · rw [hfo]
      rfl
  · intro q fo h
    rcases e1 q fo h with h' | ⟨_, i, hi, hq, hfo⟩
    · exact inv.tot_files q fo h'
    · rw [hfo]
      rfl
  · intro q fo h
    rcases e1 q fo h with h' | ⟨_, i, hi, hq, hfo⟩
    · exact inv.tot_chars q fo h'
    · rw [hfo]
      rfl
  · intro q fo h
    rcases e1 q fo h with h' | ⟨_, i, hi, hq, hfo⟩
    · exact inv.tot_len q fo h'
    · rw [hfo]
      rfl
  · intro q fo h
    rcases e1 q fo h with h' | ⟨_, i, hi, hq, hfo⟩
    · exact inv.tot_size q fo h'
    · rw [hfo]
      rfl
  · intro k hk hd
    rcases (e4 k).mp hk with hk' | ⟨i, hi, hk'⟩
    · exact (e4 (parentOf k)).mpr (Or.inl (inv.parent_mem k hk' hd))
    · have hi1 : i + 1 ≤ (pathParts s).length := by omega
      have hdep : depthOf k = i + 1 := by
        rw [hk']
        exact depthOf_join_take (pathParts s) hsf i hi1
      have hile : 1 ≤ i := by omega
      have hpar : parentOf k = joinParts ((pathParts s).take i) := by
        rw [hk']
        exact parentOf_join_take (pathParts s) hsf i hi1
      refine (e4 (parentOf k)).mpr (Or.inr ⟨i - 1, by omega, ?_⟩)
      rw [hpar]
      congr 2
      omega

/-- One step of the first pass preserves the invariant. -/
theorem PassOneInv.fileStep {processed : List FileStats} {st : FolderMap × List FileStats}
    (f : FileStats) (inv : PassOneInv processed st.1 st.2) :
    PassOneInv (processed ++ [f]) (passOneStep st f).1 (passOneStep st f).2 := by
  by_cases h1 : (pathParts f.relativePath).length = 1
  · have hstep : passOneStep st f = (st.1, st.2 ++ [f]) := by
      unfold passOneStep
      rw [if_pos h1]
    rw [hstep]
    have hphi : ∀ q, phiB f q = false := by
      intro q
      unfold phiB
      have : ¬(1 < (pathParts f.relativePath).length) := by omega
      simp [this]
    have hfil : ∀ q, (processed ++ [f]).filter (fun g => phiB g q) =
        processed.filter (fun g => phiB g q) := by
      intro q
      rw [filter_append_single, hphi q]
      simp
    refine ⟨?_, ?_, ?_, inv.sub_nil, inv.tot_files, inv.tot_chars, inv.tot_len,
      inv.tot_size, inv.parent_mem, inv.keys_nodup⟩
    · rw [filter_append_single]
      rw [decide_eq_true h1]
      rw [inv.roots_eq]
      simp
    · intro q fo h
      rw [hfil q]
      exact inv.files_char q fo h
    · intro q h
      rw [hfil q]
      exact inv.none_char q h
  · have hlen2 : 2 ≤ (pathParts f.relativePath).length := by
      have : 0 < (pathParts f.relativePath).length :=
        List.length_pos.mpr (pathParts_ne_nil f.relativePath)
      omega
    have invE := inv.ensure f.relativePath
    have hrootpred : decide ((pathParts f.relativePath).length = 1) = false := by
      simp [h1]
    have hroots : (processed ++ [f]).filter
          (fun g => decide ((pathParts g.relativePath).length = 1)) =
        processed.filter (fun g => decide ((pathParts g.relativePath).length = 1)) := by
      rw [filter_append_single, hrootpred]
      simp
    by_cases h2 : parentOf f.relativePath = ""
    · have hstep : passOneStep st f =
          (ensureFolders (pathParts f.relativePath) st.1, st.2) := by
        unfold passOneStep
        rw [if_neg h1, if_pos h2]
      rw [hstep]
      have hphi : ∀ q, phiB f q = false := by
        intro q
        unfold phiB
        rw [show decide (¬parentOf f.relativePath = "") = false from
          decide_eq_false (fun hn => hn h2), Bool.and_false]
      have hfil : ∀ q, (processed ++ [f]).filter (fun g => phiB g q) =
          processed.filter (fun g => phiB g q) := by
        intro q
        rw [filter_append_single, hphi q]
        simp
      refine ⟨?_, ?_, ?_, invE.sub_nil, invE.tot_files, invE.tot_chars, invE.tot_len,
        invE.tot_size, invE.parent_mem, invE.keys_nodup⟩
      · rw [hroots]
        exact invE.roots_eq
      · intro q fo h
        rw [hfil q]
        exact invE.files_char q fo h
      · intro q h
        rw [hfil q]
        exact invE.none_char q h
    · obtain ⟨_, _, e3, _, _⟩ :=
        ensure_aux (pathParts f.relativePath) st.1 ((pathParts f.relativePath).length - 1)
      have hdl : (pathParts f.relativePath).dropLast =
          (pathParts f.relativePath).take ((pathParts f.relativePath).length - 2 + 1) := by
        rw [List.dropLast_eq_take]
        congr 1
        omega
      have hparj : parentOf f.relativePath =
          joinParts ((pathParts f.relativePath).take
            ((pathParts f.relativePath).length - 2 + 1)) := by
        unfold parentOf
        rw [hdl]
      have hsome : (mfind (ensureFolders (pathParts f.relativePath) st.1)
          (parentOf f.relativePath)).isSome = true := by
        rw [hparj]
        exact e3 ((pathParts f.relativePath).length - 2) (by omega)
      rcases hfound : mfind (ensureFolders (pathParts f.relativePath) st.1)
          (parentOf f.relativePath) with _ | fo
      · rw [hfound] at hsome
        cases hsome
      have hstep : passOneStep st f =
          (mset (ensureFolders (pathParts f.relativePath) st.1) (parentOf f.relativePath)
            (addFileTotals fo f), st.2) := by
        unfold passOneStep
        rw [if_neg h1, if_neg h2, hfound]
      rw [hstep]
      have hphit : phiB f (parentOf f.relativePath) = true := by
        unfold phiB
        rw [decide_eq_true (show 1 < (pathParts f.relativePath).length by omega),
          decide_eq_true (rfl : parentOf f.relativePath = parentOf f.relativePath),
          decide_eq_true h2]
        rfl
      have hphif : ∀ q, q ≠ parentOf f.relativePath → phiB f q = false := by
        intro q hq
        unfold phiB
        rw [show decide (parentOf f.relativePath = q) = false from
          decide_eq_false (fun h => hq h.symm), Bool.and_false, Bool.false_and]
      have hfil : ∀ q, q ≠ parentOf f.relativePath →
          (processed ++ [f]).filter (fun g => phiB g q) =
            processed.filter (fun g => phiB g q) := by
        intro q hq
        rw [filter_append_single, hphif q hq]
        simp
      have hfilp : (processed ++ [f]).filter (fun g => phiB g (parentOf f.relativePath)) =
          processed.filter (fun g => phiB g (parentOf f.relativePath)) ++ [f] := by
        rw [filter_append_single, hphit]
        simp
      have hparmem : parentOf f.relativePath
          ∈ mkeys (ensureFolders (pathParts f.relativePath) st.1) := by
        rw [mem_mkeys_iff_mfind, hfound]
        rfl
      have hkeys : mkeys (mset (ensureFolders (pathParts f.relativePath) st.1)
            (parentOf f.relativePath) (addFileTotals fo f)) =
          mkeys (ensureFolders (pathParts f.relativePath) st.1) :=
        mkeys_mset_of_mem _ _ _ hparmem
      refine ⟨?_, ?_, ?_, ?_, ?_, ?_, ?_, ?_, ?_, ?_⟩
      · rw [hroots]
        exact invE.roots_eq
      · intro q fo' h
        by_cases hq : q = parentOf f.relativePath
        · rw [hq, mfind_mset_self] at h
          injection h with h
          rw [← h]
          show fo.files ++ [f] = _
          rw [hq, hfilp, invE.files_char (parentOf f.relativePath) fo hfound]
        · rw [mfind_mset_ne _ _ _ _ hq] at h
          rw [hfil q hq]
          exact invE.files_char q fo' h
      · intro q h
        by_cases hq : q = parentOf f.relativePath
        · rw [hq, mfind_mset_self] at h
          cases h
        · rw [mfind_mset_ne _ _ _ _ hq] at h
          rw [hfil q hq]
          exact invE.none_char q h
      · intro q fo' h
        by_cases hq : q = parentOf f.relativePath
        · rw [hq, mfind_mset_self] at h
          injection h with h
          rw [← h]
          exact invE.sub_nil _ fo hfound
        · rw [mfind_mset_ne _ _ _ _ hq] at h
          exact invE.sub_nil q fo' h
      · intro q fo' h
        by_cases hq : q = parentOf f.relativePath
        · rw [hq, mfind_mset_self] at h
          injection h with h
          rw [← h]
          show fo.totalFiles + 1 = (fo.files ++ [f]).length
          rw [invE.tot_files _ fo hfound, List.length_append]
          rfl
        · rw [mfind_mset_ne _ _ _ _ hq] at h
          exact invE.tot_files q fo' h
      · intro q fo' h
        by_cases hq : q = parentOf f.relativePath
        · rw [hq, mfind_mset_self] at h
          injection h with h
          rw [← h]
          show fo.totalCharacters + f.characterCount = ((fo.files ++ [f]).map _).sum
          rw [invE.tot_chars _ fo hfound, List.map_append, List.sum_append]
          simp
        · rw [mfind_mset_ne _ _ _ _ hq] at h
          exact invE.tot_chars q fo' h
      · intro q fo' h
        by_cases hq : q = parentOf f.relativePath
        · rw [hq, mfind_mset_self] at h
          injection h with h
          rw [← h]
          show fo.totalLengthInCm + f.lengthInCm = ((fo.files ++ [f]).map _).sum
          rw [invE.tot_len _ fo hfound, List.map_append, List.sum_append]
          simp
        · rw [mfind_mset_ne _ _ _ _ hq] at h
          exact invE.tot_len q fo' h
      · intro q fo' h
        by_cases hq : q = parentOf f.relativePath
        · rw [hq, mfind_mset_self] at h
          injection h with h
          rw [← h]
          show fo.totalSizeInBytes + f.fileSize = ((fo.files ++ [f]).map _).sum
          rw [invE.tot_size _ fo hfound, List.map_append, List.sum_append]
          simp
        · rw [mfind_mset_ne _ _ _ _ hq] at h
          exact invE.tot_size q fo' h
      · rw [hkeys]
        exact invE.parent_mem
      · rw [hkeys]
        exact invE.keys_nodup

end HowLong

namespace HowLong

theorem passOne_inv_aux (files : List FileStats) :
    ∀ (processed : List FileStats) (st : FolderMap × List FileStats),
      PassOneInv processed st.1 st.2 →
      PassOneInv (processed ++ files) (files.foldl passOneStep st).1
        (files.foldl passOneStep st).2 := by
  induction files with
  | nil =>
    intro processed st h
    simpa using h
  | cons f rest ih =>
    intro processed st h
    rw [List.foldl_cons]
    have h2 := ih (processed ++ [f]) (passOneStep st f) (h.fileStep f)
    rwa [List.append_assoc, List.singleton_append] at h2

/-- The invariant established by the full first pass. -/
theorem passOne_inv (files : List FileStats) :
    PassOneInv files (passOne files).1 (passOne files).2 := by
  have hinit : PassOneInv [] ([] : FolderMap) [] := by
    refine ⟨rfl, ?_, fun q h => rfl, ?_, ?_, ?_, ?_, ?_, ?_, List.nodup_nil⟩ <;>
      first
        | (intro q fo h; cases h)
        | (intro k hk; cases hk)
  have := passOne_inv_aux files [] ([], []) hinit
  simpa using this

/-! ### The second-pass invariant -/

/-- `childB p q`: the second pass links folder `p` as a direct subfolder of
`q` — `p` is not root-level and its parent path is `q`. -/
def childB (p q : String) : Bool :=
  decide (2 ≤ depthOf p) && decide (parentOf p = q)

/-- The rolled-up character total of a list of subfolder keys. -/
def subTotalChars (m : FolderMap) (l : List String) : Nat :=
  (l.map (fun c => ((mfind m c).map FolderAcc.totalCharacters).getD 0)).sum

/-- The rolled-up length total of a list of subfolder keys. -/
def subTotalLen (m : FolderMap) (l : List String) : ℚ :=
  (l.map (fun c => ((mfind m c).map FolderAcc.totalLengthInCm).getD 0)).sum

/-- The rolled-up file-count total of a list of subfolder keys. -/
def subTotalFiles (m : FolderMap) (l : List String) : Nat :=
  (l.map (fun c => ((mfind m c).map FolderAcc.totalFiles).getD 0)).sum

/-- Invariant of the second pass of `buildFolderStructure` after processing
the keys `ps` (in order): keys and direct files are untouched, each folder's
subfolder list holds exactly the processed keys whose parent it is, each
folder's totals are its direct-file totals plus its current subfolders'
current totals, and the collected roots are the processed depth-1 keys. -/
structure PassTwoInv (E : FolderMap) (ps : List String) (m : FolderMap)
    (roots : List String) : Prop where
  keys_eq : mkeys m = mkeys E
  files_eq : ∀ q fo fo', mfind E q = some fo → mfind m q = some fo' →
    fo'.files = fo.files
  sub_char : ∀ q fo', mfind m q = some fo' →
    fo'.subfolderPaths = ps.filter (fun p => childB p q)
  tot_chars : ∀ q fo', mfind m q = some fo' →
    fo'.totalCharacters = (fo'.files.map (·.characterCount)).sum +
      subTotalChars m fo'.subfolderPaths
  tot_len : ∀ q fo', mfind m q = some fo' →
    fo'.totalLengthInCm = (fo'.files.map (·.lengthInCm)).sum +
      subTotalLen m fo'.subfolderPaths
  tot_files : ∀ q fo', mfind m q = some fo' →
    fo'.totalFiles = fo'.files.length + subTotalFiles m fo'.subfolderPaths
  roots_char : roots = ps.filter (fun p => decide (depthOf p = 1))

/-- At the start of the second pass (no keys processed) the invariant holds,
given the first-pass facts. -/
theorem PassTwoInv.init {files roots0 : List FileStats} {E : FolderMap}
    (invE : PassOneInv files E roots0) : PassTwoInv E [] E [] := by
  refine ⟨rfl, ?_, ?_, ?_, ?_, ?_, rfl⟩
  · intro q fo fo' h h'
    rw [h] at h'
    injection h' with h'
    rw [h']
  · intro q fo' h
    rw [invE.sub_nil q fo' h]
    rfl
  · intro q fo' h
    rw [invE.sub_nil q fo' h, invE.tot_chars q fo' h]
    rfl
  · intro q fo' h
    rw [invE.sub_nil q fo' h, invE.tot_len q fo' h]
    show _ = _ + (0 : ℚ)
    rw [add_zero]
  · intro q fo' h
    rw [invE.sub_nil q fo' h, invE.tot_files q fo' h]
    rfl

end HowLong

namespace HowLong

/-- Updating a key not occurring in `l` does not change rolled-up totals
read through `l`. -/
theorem map_mfind_mset_notin {M : Type} (g : FolderAcc → M) (d : M) (m : FolderMap)
    (k : String) (v : FolderAcc) (l : List String) (h : k ∉ l) :
    l.map (fun c => ((mfind (mset m k v) c).map g).getD d) =
      l.map (fun c => ((mfind m c).map g).getD d) := by
  apply List.map_congr_left
  intro c hc
  rw [mfind_mset_ne _ _ _ _ (fun heq => h (by rw [← heq]; exact hc))]

/-- One step of the second pass preserves the invariant, provided every
already-processed key is at least as deep as the current one. -/
theorem PassTwoInv.keyStep {E m : FolderMap} {ps roots : List String} {p : String}
    (inv : PassTwoInv E ps m roots)
    (hpE : p ∈ mkeys E)
    (hparent : ∀ k ∈ mkeys E, 2 ≤ depthOf k → parentOf k ∈ mkeys E)
    (hps : ∀ a ∈ ps, depthOf p ≤ depthOf a) :
    PassTwoInv E (ps ++ [p]) (passTwoStep (m, roots) p).1 (passTwoStep (m, roots) p).2 := by
  have hpm : p ∈ mkeys m := by
    rw [inv.keys_eq]
    exact hpE
  rw [mem_mkeys_iff_mfind] at hpm
  rcases hfolder : mfind m p with _ | folder
  · rw [hfolder] at hpm
    cases hpm
  by_cases hd1 : depthOf p = 1
  · have hstep : passTwoStep (m, roots) p = (m, roots ++ [p]) := by
      unfold passTwoStep
      simp only [hfolder]
      rw [if_pos hd1]
    rw [hstep]
    have hchild : ∀ q, childB p q = false := by
      intro q
      unfold childB
      rw [show decide (2 ≤ depthOf p) = false from decide_eq_false (by omega),
        Bool.false_and]
    have hfil : ∀ q, (ps ++ [p]).filter (fun c => childB c q) =
        ps.filter (fun c => childB c q) := by
      intro q
      rw [filter_append_single, hchild q]
      simp
    refine ⟨inv.keys_eq, inv.files_eq, ?_, inv.tot_chars, inv.tot_len, inv.tot_files, ?_⟩
    · intro q fo' h
      rw [hfil q]
      exact inv.sub_char q fo' h
    · rw [filter_append_single, decide_eq_true hd1, inv.roots_char]
      simp
  · have hd2 : 2 ≤ depthOf p := by
      have := one_le_depthOf p
      omega
    have hq0E : parentOf p ∈ mkeys E := hparent p hpE hd2
    have hq0m : parentOf p ∈ mkeys m := by
      rw [inv.keys_eq]
      exact hq0E
    rw [mem_mkeys_iff_mfind] at hq0m
    rcases hpar : mfind m (parentOf p) with _ | parent
    · rw [hpar] at hq0m
      cases hq0m
    have hstep : passTwoStep (m, roots) p =
        (mset m (parentOf p)
          { parent with subfolderPaths := parent.subfolderPaths ++ [p],
                        totalFiles := parent.totalFiles + folder.totalFiles,
                        totalCharacters := parent.totalCharacters + folder.totalCharacters,
                        totalLengthInCm := parent.totalLengthInCm + folder.totalLengthInCm,
                        totalSizeInBytes := parent.totalSizeInBytes + folder.totalSizeInBytes },
         roots) := by
      unfold passTwoStep
      simp only [hfolder]
      rw [if_neg hd1]
      simp only [hpar]
    rw [hstep]
    have hdq0 : depthOf (parentOf p) = depthOf p - 1 := depthOf_parentOf p hd2
    have hq0p : parentOf p ≠ p := by
      intro h
      rw [h] at hdq0
      omega
    have hnotin : ∀ q fo', mfind m q = some fo' → parentOf p ∉ fo'.subfolderPaths := by
      intro q fo' h hmem
      rw [inv.sub_char q fo' h] at hmem
      have hmemps : parentOf p ∈ ps := List.mem_of_mem_filter hmem
      have := hps (parentOf p) hmemps
      omega
    have hchildt : childB p (parentOf p) = true := by
      unfold childB
      rw [decide_eq_true hd2, decide_eq_true (rfl : parentOf p = parentOf p)]
      rfl
    have hchildf : ∀ q, q ≠ parentOf p → childB p q = false := by
      intro q hq
      unfold childB
      rw [show decide (parentOf p = q) = false from
        decide_eq_false (fun h => hq h.symm), Bool.and_false]
    have hsubself : ∀ c ∈ parent.subfolderPaths, c ≠ parentOf p := by
      intro c hc heq
      exact hnotin (parentOf p) parent hpar (heq ▸ hc)
    refine ⟨?_, ?_, ?_, ?_, ?_, ?_, ?_⟩
    · rw [mkeys_mset_of_mem m (parentOf p) _ (by
        rw [mem_mkeys_iff_mfind, hpar]
        rfl)]
      exact inv.keys_eq
    · intro q fo fo' hE h
      by_cases hq : q = parentOf p
      · rw [hq, mfind_mset_self] at h
        injection h with h
        rw [← h]
        show parent.files = fo.files
        rw [hq] at hE
        exact inv.files_eq (parentOf p) fo parent hE hpar
      · rw [mfind_mset_ne _ _ _ _ hq] at h
        exact inv.files_eq q fo fo' hE h
    · intro q fo' h
      by_cases hq : q = parentOf p
      · rw [hq, mfind_mset_self] at h
        injection h with h
        rw [← h]
        show parent.subfolderPaths ++ [p] = _
        rw [hq, filter_append_single, hchildt, inv.sub_char (parentOf p) parent hpar]
        simp
      · rw [mfind_mset_ne _ _ _ _ hq] at h
        rw [filter_append_single, hchildf q hq]
        rw [inv.sub_char q fo' h]
        simp
    · intro q fo' h
      by_cases hq : q = parentOf p
      · rw [hq, mfind_mset_self] at h
        injection h with h
        rw [← h]
        show parent.totalCharacters + folder.totalCharacters =
          (parent.files.map (·.characterCount)).sum +
            subTotalChars _ (parent.subfolderPaths ++ [p])
        unfold subTotalChars
        rw [List.map_append, List.sum_append]
        rw [map_mfind_mset_notin _ _ m (parentOf p) _ parent.subfolderPaths
          (hnotin (parentOf p) parent hpar)]
        have hfp : mfind (mset m (parentOf p)
            { parent with subfolderPaths := parent.subfolderPaths ++ [p],
                          totalFiles := parent.totalFiles + folder.totalFiles,
                          totalCharacters := parent.totalCharacters + folder.totalCharacters,
                          totalLengthInCm := parent.totalLengthInCm + folder.totalLengthInCm,
                          totalSizeInBytes := parent.totalSizeInBytes + folder.totalSizeInBytes })
            p = some folder := by
          rw [mfind_mset_ne _ _ _ _ (fun h => hq0p h.symm)]
          exact hfolder
        rw [show (([p].map (fun c => ((mfind (mset m (parentOf p) _) c).map
            FolderAcc.totalCharacters).getD 0)).sum) =
            folder.totalCharacters from by rw [List.map_singleton, hfp]; simp]
        rw [inv.tot_chars (parentOf p) parent hpar]
        unfold subTotalChars
        omega
      · rw [mfind_mset_ne _ _ _ _ hq] at h
        unfold subTotalChars
        rw [map_mfind_mset_notin _ _ m (parentOf p) _ fo'.subfolderPaths
          (hnotin q fo' h)]
        exact inv.tot_chars q fo' h
    · intro q fo' h
      by_cases hq : q = parentOf p
      · rw [hq, mfind_mset_self] at h
        injection h with h
        rw [← h]
        show parent.totalLengthInCm + folder.totalLengthInCm =
          (parent.files.map (·.lengthInCm)).sum +
            subTotalLen _ (parent.subfolderPaths ++ [p])
        unfold subTotalLen
        rw [List.map_append, List.sum_append]
        rw [map_mfind_mset_notin _ _ m (parentOf p) _ parent.subfolderPaths
          (hnotin (parentOf p) parent hpar)]
        have hfp : mfind (mset m (parentOf p)
            { parent with subfolderPaths := parent.subfolderPaths ++ [p],
                          totalFiles := parent.totalFiles + folder.totalFiles,
                          totalCharacters := parent.totalCharacters + folder.totalCharacters,
                          totalLengthInCm := parent.totalLengthInCm + folder.totalLengthInCm,
                          totalSizeInBytes := parent.totalSizeInBytes + folder.totalSizeInBytes })
            p = some folder := by
          rw [mfind_mset_ne _ _ _ _ (fun h => hq0p h.symm)]
          exact hfolder
        rw [show (([p].map (fun c => ((mfind (mset m (parentOf p) _) c).map
            FolderAcc.totalLengthInCm).getD 0)).sum) =
            folder.totalLengthInCm from by rw [List.map_singleton, hfp]; simp]
        rw [inv.tot_len (parentOf p) parent hpar]
        unfold subTotalLen
        ring
      · rw [mfind_mset_ne _ _ _ _ hq] at h
        unfold subTotalLen
        rw [map_mfind_mset_notin _ _ m (parentOf p) _ fo'.subfolderPaths
          (hnotin q fo' h)]
        exact inv.tot_len q fo' h
    · intro q fo' h
      by_cases hq : q = parentOf p
      · rw [hq, mfind_mset_self] at h
        injection h with h
        rw [← h]
        show parent.totalFiles + folder.totalFiles =
          parent.files.length + subTotalFiles _ (parent.subfolderPaths ++ [p])
        unfold subTotalFiles
        rw [List.map_append, List.sum_append]
        rw [map_mfind_mset_notin _ _ m (parentOf p) _ parent.subfolderPaths
          (hnotin (parentOf p) parent hpar)]
        have hfp : mfind (mset m (parentOf p)
            { parent with subfolderPaths := parent.subfolderPaths ++ [p],
                          totalFiles := parent.totalFiles + folder.totalFiles,
                          totalCharacters := parent.totalCharacters + folder.totalCharacters,
                          totalLengthInCm := parent.totalLengthInCm + folder.totalLengthInCm,
                          totalSizeInBytes := parent.totalSizeInBytes + folder.totalSizeInBytes })
            p = some folder := by
          rw [mfind_mset_ne _ _ _ _ (fun h => hq0p h.symm)]
          exact hfolder
        rw [show (([p].map (fun c => ((mfind (mset m (parentOf p) _) c).map
            FolderAcc.totalFiles).getD 0)).sum) =
            folder.totalFiles from by rw [List.map_singleton, hfp]; simp]
        rw [inv.tot_files (parentOf p) parent hpar]
        unfold subTotalFiles
        omega
      · rw [mfind_mset_ne _ _ _ _ hq] at h
        unfold subTotalFiles
        rw [map_mfind_mset_notin _ _ m (parentOf p) _ fo'.subfolderPaths
          (hnotin q fo' h)]
        exact inv.tot_files q fo' h
    · rw [filter_append_single,
        show decide (depthOf p = 1) = false from decide_eq_false hd1, inv.roots_char]
      simp

end HowLong

namespace HowLong

theorem passTwoInv_fold (E : FolderMap)
    (hparent : ∀ k ∈ mkeys E, 2 ≤ depthOf k → parentOf k ∈ mkeys E) :
    ∀ (ks ps roots : List String) (m : FolderMap),
      (∀ k ∈ ks, k ∈ mkeys E) →
      (∀ a ∈ ps, ∀ b ∈ ks, depthOf b ≤ depthOf a) →
      List.Pairwise (fun a b => depthOf b ≤ depthOf a) ks →
      PassTwoInv E ps m roots →
      PassTwoInv E (ps ++ ks) (ks.foldl passTwoStep (m, roots)).1
        (ks.foldl passTwoStep (m, roots)).2 := by
  intro ks
  induction ks with
  | nil =>
    intro ps roots m _ _ _ inv
    simpa using inv
  | cons p rest ih =>
    intro ps roots m hmem hord hpw inv
    rw [List.foldl_cons]
    have hstep := inv.keyStep (hmem p (List.mem_cons_self p rest)) hparent
      (fun a ha => hord a ha p (List.mem_cons_self p rest))
    have ih2 := ih (ps ++ [p]) (passTwoStep (m, roots) p).2 (passTwoStep (m, roots) p).1
      (fun k hk => hmem k (List.mem_cons_of_mem p hk))
      (by
        intro a ha b hb
        rcases List.mem_append.mp ha with ha' | ha'
        · exact hord a ha' b (List.mem_cons_of_mem p hb)
        · rw [List.mem_singleton] at ha'
          subst ha'
          exact List.rel_of_pairwise_cons hpw hb)
      (List.Pairwise.of_cons hpw) hstep
    rwa [List.append_assoc, List.singleton_append] at ih2

/-- The invariant established by the full second pass over the arena of the
first pass. -/
theorem passTwo_inv (files : List FileStats) :
    PassTwoInv (passOne files).1 (sortedFolderKeys (passOne files).1)
      (passTwo (passOne files).1).1 (passTwo (passOne files).1).2 := by
  have inv1 := passOne_inv files
  have hT : IsTotal (String × FolderAcc) (fun a b => depthOf b.1 ≤ depthOf a.1) :=
    ⟨fun a b => Nat.le_total (depthOf b.1) (depthOf a.1)⟩
  have hTr : IsTrans (String × FolderAcc) (fun a b => depthOf b.1 ≤ depthOf a.1) :=
    ⟨fun a b c hab hbc => le_trans hbc hab⟩
  have hsorted : List.Pairwise (fun a b => depthOf b ≤ depthOf a)
      (sortedFolderKeys (passOne files).1) := by
    unfold sortedFolderKeys
    rw [List.pairwise_map]
    exact @List.sorted_insertionSort _ _ _ hT hTr (passOne files).1
  have hmem : ∀ k ∈ sortedFolderKeys (passOne files).1, k ∈ mkeys (passOne files).1 := by
    intro k hk
    unfold sortedFolderKeys at hk
    have hperm := (List.perm_insertionSort
      (fun a b : String × FolderAcc => depthOf b.1 ≤ depthOf a.1) (passOne files).1).map
      (fun e => e.1)
    exact hperm.mem_iff.mp hk
  have hfold := passTwoInv_fold (passOne files).1 inv1.parent_mem
    (sortedFolderKeys (passOne files).1) [] [] (passOne files).1 hmem
    (by intro a ha; cases ha) hsorted (PassTwoInv.init inv1)
  simpa [passTwo] using hfold

end HowLong

namespace HowLong

/-! ### Materializing the arena into the folder tree -/

/-- `DescP q k`: key `k` lies in the subtree rooted at key `q` — the segment
list of `q` is an initial run of the segment list of `k`. -/
def DescP (q k : String) : Prop :=
  depthOf q ≤ depthOf k ∧ (pathParts k).take (depthOf q) = pathParts q

/-- The three rollup equations of the claim at one tree node. -/
def Requations (g : FolderStats) : Prop :=
  g.totalCharacters = (g.files.map (·.characterCount)).sum +
      (g.subfolders.map FolderStats.totalCharacters).sum ∧
  g.totalLengthInCm = (g.files.map (·.lengthInCm)).sum +
      (g.subfolders.map FolderStats.totalLengthInCm).sum ∧
  g.totalFiles = g.files.length + (g.subfolders.map FolderStats.totalFiles).sum

theorem descP_refl (q : String) : DescP q q :=
  ⟨le_refl _, List.take_length _⟩

theorem eq_of_descP_of_depth_le (q k : String) (h : DescP q k)
    (hd : depthOf k ≤ depthOf q) : k = q := by
  obtain ⟨h1, h2⟩ := h
  have hdep : depthOf q = depthOf k := le_antisymm h1 hd
  rw [hdep] at h2
  have hfull : (pathParts k).take (depthOf k) = pathParts k := List.take_length _
  rw [hfull] at h2
  rw [← joinParts_pathParts k, ← joinParts_pathParts q, h2]

theorem descP_of_child (c q k : String) (hpar : parentOf c = q) (hd : 2 ≤ depthOf c)
    (h : DescP c k) : DescP q k := by
  obtain ⟨h1, h2⟩ := h
  have hdq : depthOf q = depthOf c - 1 := by
    rw [← hpar]
    exact depthOf_parentOf c hd
  constructor
  · omega
  · have ht : (pathParts k).take (depthOf q) =
        ((pathParts k).take (depthOf c)).take (depthOf q) := by
      rw [List.take_take, Nat.min_eq_left (by omega)]
    rw [ht, h2]
    have hteq : (pathParts c).take (depthOf q) = (pathParts c).dropLast := by
      rw [List.dropLast_eq_take, hdq]
      rfl
    rw [hteq, ← pathParts_parentOf c hd, hpar]

theorem child_of_descP (q k : String) (h : DescP q k) (hlt : depthOf q < depthOf k) :
    depthOf (joinParts ((pathParts k).take (depthOf q + 1))) = depthOf q + 1 ∧
    parentOf (joinParts ((pathParts k).take (depthOf q + 1))) = q ∧
    DescP (joinParts ((pathParts k).take (depthOf q + 1))) k := by
  obtain ⟨h1, h2⟩ := h
  have hsf := slash_not_mem_pathParts k
  have hlen : depthOf q + 1 ≤ (pathParts k).length := hlt
  have hdep := depthOf_join_take (pathParts k) hsf (depthOf q) hlen
  refine ⟨hdep, ?_, ?_⟩
  · rw [parentOf_join_take (pathParts k) hsf (depthOf q) hlen, h2, joinParts_pathParts]
  · constructor
    · rw [hdep]
      omega
    · rw [hdep, pathParts_join_take (pathParts k) hsf (depthOf q) hlen]

/-- Every prefix-join of a key's segments is itself a key, when keys are
closed under taking parents. -/
theorem ancestors_mem (M : FolderMap)
    (hparent : ∀ k ∈ mkeys M, 2 ≤ depthOf k → parentOf k ∈ mkeys M) :
    ∀ (d : Nat) (k : String), k ∈ mkeys M → ∀ j, 1 ≤ j → j ≤ depthOf k →
      depthOf k - j ≤ d → joinParts ((pathParts k).take j) ∈ mkeys M := by
  intro d
  induction d with
  | zero =>
    intro k hk j h1 hle hd
    have hj : j = depthOf k := by omega
    subst hj
    rw [show (pathParts k).take (depthOf k) = pathParts k from List.take_length _,
      joinParts_pathParts]
    exact hk
  | succ d ih =>
    intro k hk j h1 hle hd
    by_cases hj : j = depthOf k
    · subst hj
      rw [show (pathParts k).take (depthOf k) = pathParts k from List.take_length _,
        joinParts_pathParts]
      exact hk
    · have hjlt : j < depthOf k := by omega
      have hk' := ih k hk (j + 1) (by omega) (by omega) (by omega)
      have hsf := slash_not_mem_pathParts k
      have hlen : j + 1 ≤ (pathParts k).length := hjlt
      have hdep := depthOf_join_take (pathParts k) hsf j hlen
      have := hparent (joinParts ((pathParts k).take (j + 1))) hk' (by omega)
      rwa [parentOf_join_take (pathParts k) hsf j hlen] at this

/-- All the facts `materialize` establishes about a key with enough fuel. -/
def MatOk (M : FolderMap) (fuel : Nat) (q : String) (node : FolderStats) : Prop :=
  materialize M fuel q = some node ∧ node.path = q ∧
  (∃ fo, mfind M q = some fo ∧ node.files = fo.files ∧
     node.totalCharacters = fo.totalCharacters ∧
     node.totalLengthInCm = fo.totalLengthInCm ∧
     node.totalFiles = fo.totalFiles) ∧
  (∀ g ∈ node.collect, Requations g) ∧
  (∀ g ∈ node.collect, ∃ fo'', mfind M g.path = some fo'' ∧ g.files = fo''.files) ∧
  (∀ k, k ∈ node.collect.map FolderStats.path ↔ (k ∈ mkeys M ∧ DescP q k)) ∧
  (node.collect.map FolderStats.path).Nodup

end HowLong

namespace HowLong

theorem collectList_cons (f : FolderStats) (rest : List FolderStats) :
    collectList (f :: rest) = f.collect ++ collectList rest := rfl

/-- Materializing a list of same-depth keys, assuming every key
materializes correctly with the given fuel. -/
theorem materialize_list (M : FolderMap) (N : Nat) (fuel : Nat) (d : Nat)
    (IH : ∀ q, q ∈ mkeys M → N + 1 ≤ depthOf q + fuel → ∃ node, MatOk M fuel q node)
    (hNd : N + 1 ≤ d + fuel) :
    ∀ l : List String, (∀ c ∈ l, c ∈ mkeys M ∧ depthOf c = d) → l.Nodup →
      ((l.filterMap (materialize M fuel)).map FolderStats.path = l ∧
       (l.filterMap (materialize M fuel)).map FolderStats.totalCharacters =
         l.map (fun c => ((mfind M c).map FolderAcc.totalCharacters).getD 0) ∧
       (l.filterMap (materialize M fuel)).map FolderStats.totalLengthInCm =
         l.map (fun c => ((mfind M c).map FolderAcc.totalLengthInCm).getD 0) ∧
       (l.filterMap (materialize M fuel)).map FolderStats.totalFiles =
         l.map (fun c => ((mfind M c).map FolderAcc.totalFiles).getD 0)) ∧
      (∀ g ∈ collectList (l.filterMap (materialize M fuel)), Requations g) ∧
      (∀ g ∈ collectList (l.filterMap (materialize M fuel)),
        ∃ fo'', mfind M g.path = some fo'' ∧ g.files = fo''.files) ∧
      (∀ k, k ∈ (collectList (l.filterMap (materialize M fuel))).map FolderStats.path ↔
        (k ∈ mkeys M ∧ ∃ c ∈ l, DescP c k)) ∧
      ((collectList (l.filterMap (materialize M fuel))).map FolderStats.path).Nodup := by
  intro l
  induction l with
  | nil =>
    intro _ _
    refine ⟨⟨rfl, rfl, rfl, rfl⟩, ?_, ?_, ?_, ?_⟩
    · intro g hg
      cases hg
    · intro g hg
      cases hg
    · intro k
      simp [collectList]
    · simp [collectList]
  | cons c rest ihl =>
    intro hmem hnodup
    obtain ⟨hcK, hcd⟩ := hmem c (List.mem_cons_self c rest)
    obtain ⟨node, hmat, hpath, hfoEx, hreq, hfiles, hmemiff, hnodupc⟩ :=
      IH c hcK (by rw [hcd]; exact hNd)
    have hfm : (c :: rest).filterMap (materialize M fuel) =
        node :: rest.filterMap (materialize M fuel) := by
      rw [List.filterMap_cons, hmat]
    obtain ⟨⟨ra, rtc, rtl, rtf⟩, rreq, rfiles, rmem, rnodup⟩ :=
      ihl (fun x hx => hmem x (List.mem_cons_of_mem c hx)) hnodup.of_cons
    obtain ⟨fo, hfo, hnf, hntc, hntl, hntf⟩ := hfoEx
    have hcne : c ∉ rest := (List.nodup_cons.mp hnodup).1
    rw [hfm]
    refine ⟨⟨?_, ?_, ?_, ?_⟩, ?_, ?_, ?_, ?_⟩
    · rw [List.map_cons, hpath, ra]
    · rw [List.map_cons, rtc, List.map_cons, hntc, hfo]
      rfl
    · rw [List.map_cons, rtl, List.map_cons, hntl, hfo]
      rfl
    · rw [List.map_cons, rtf, List.map_cons, hntf, hfo]
      rfl
    · intro g hg
      rw [collectList_cons, List.mem_append] at hg
      rcases hg with hg | hg
      · exact hreq g hg
      · exact rreq g hg
    · intro g hg
      rw [collectList_cons, List.mem_append] at hg
      rcases hg with hg | hg
      · exact hfiles g hg
      · exact rfiles g hg
    · intro k
      rw [collectList_cons, List.map_append, List.mem_append, hmemiff k, rmem k]
      constructor
      · rintro (⟨hk, hd'⟩ | ⟨hk, c', hc', hd'⟩)
        · exact ⟨hk, c, List.mem_cons_self c rest, hd'⟩
        · exact ⟨hk, c', List.mem_cons_of_mem c hc', hd'⟩
      · rintro ⟨hk, c', hc', hd'⟩
        rcases List.mem_cons.mp hc' with rfl | hc'
        · exact Or.inl ⟨hk, hd'⟩
        · exact Or.inr ⟨hk, c', hc', hd'⟩
    · rw [collectList_cons, List.map_append]
      refine List.Nodup.append hnodupc rnodup ?_
      intro a ha hb
      obtain ⟨_, hda⟩ := (hmemiff a).mp ha
      obtain ⟨_, c', hc', hdc'⟩ := (rmem a).mp hb
      obtain ⟨_, hcd'⟩ := hmem c' (List.mem_cons_of_mem c hc')
      have hparts : pathParts c = pathParts c' := by
        have h1 := hda.2
        have h2 := hdc'.2
        rw [hcd] at h1
        rw [hcd'] at h2
        rw [← h1, ← h2]
      have : c = c' := by
        rw [← joinParts_pathParts c, ← joinParts_pathParts c', hparts]
      exact hcne (this ▸ hc')

end HowLong

namespace HowLong

/-- With enough fuel, every key of a well-formed arena materializes into a
tree whose nodes carry the arena's data, satisfy the rollup equations, and
cover exactly the descendant keys, each once. -/
theorem materialize_main (M : FolderMap) (N : Nat)
    (hdepth : ∀ k ∈ mkeys M, depthOf k ≤ N)
    (hsub_mem : ∀ q fo', mfind M q = some fo' → ∀ c ∈ fo'.subfolderPaths,
      c ∈ mkeys M ∧ depthOf c = depthOf q + 1)
    (hsub_nodup : ∀ q fo', mfind M q = some fo' → fo'.subfolderPaths.Nodup)
    (hsub_complete : ∀ q fo', mfind M q = some fo' → ∀ c ∈ mkeys M,
      2 ≤ depthOf c → parentOf c = q → c ∈ fo'.subfolderPaths)
    (hsub_parent : ∀ q fo', mfind M q = some fo' → ∀ c ∈ fo'.subfolderPaths,
      parentOf c = q)
    (htc : ∀ q fo', mfind M q = some fo' → fo'.totalCharacters =
      (fo'.files.map (·.characterCount)).sum + subTotalChars M fo'.subfolderPaths)
    (htl : ∀ q fo', mfind M q = some fo' → fo'.totalLengthInCm =
      (fo'.files.map (·.lengthInCm)).sum + subTotalLen M fo'.subfolderPaths)
    (htf : ∀ q fo', mfind M q = some fo' → fo'.totalFiles =
      fo'.files.length + subTotalFiles M fo'.subfolderPaths)
    (hanc : ∀ k ∈ mkeys M, 2 ≤ depthOf k → parentOf k ∈ mkeys M) :
    ∀ (fuel : Nat) (q : String), q ∈ mkeys M → N + 1 ≤ depthOf q + fuel →
      ∃ node, MatOk M fuel q node := by
  intro fuel
  induction fuel with
  | zero =>
    intro q hq hN
    have := hdepth q hq
    omega
  | succ fuel ih =>
    intro q hq hN
    have hqs := (mem_mkeys_iff_mfind M q).mp hq
    rcases hfo : mfind M q with _ | fo
    · rw [hfo] at hqs
      cases hqs
    have hchild := hsub_mem q fo hfo
    obtain ⟨⟨ra, rtc, rtl, rtf⟩, rreq, rfiles, rmem, rnodup⟩ :=
      materialize_list M N fuel (depthOf q + 1) ih (by omega) fo.subfolderPaths hchild
        (hsub_nodup q fo hfo)
    refine ⟨FolderStats.mk q fo.name fo.totalFiles fo.totalCharacters fo.totalLengthInCm
      fo.totalSizeInBytes fo.files (fo.subfolderPaths.filterMap (materialize M fuel)),
      ?_, rfl, ⟨fo, hfo, rfl, rfl, rfl, rfl⟩, ?_, ?_, ?_, ?_⟩
    · show (match mfind M q with
        | none => none
        | some fo =>
          some (FolderStats.mk q fo.name fo.totalFiles fo.totalCharacters fo.totalLengthInCm
            fo.totalSizeInBytes fo.files (fo.subfolderPaths.filterMap (materialize M fuel)))) = _
      rw [hfo]
    · intro g hg
      rcases List.mem_cons.mp hg with rfl | hg
      · refine ⟨?_, ?_, ?_⟩
        · show fo.totalCharacters = (fo.files.map (·.characterCount)).sum +
            ((fo.subfolderPaths.filterMap (materialize M fuel)).map
              FolderStats.totalCharacters).sum
          rw [rtc]
          exact htc q fo hfo
        · show fo.totalLengthInCm = (fo.files.map (·.lengthInCm)).sum +
            ((fo.subfolderPaths.filterMap (materialize M fuel)).map
              FolderStats.totalLengthInCm).sum
          rw [rtl]
          exact htl q fo hfo
        · show fo.totalFiles = fo.files.length +
            ((fo.subfolderPaths.filterMap (materialize M fuel)).map
              FolderStats.totalFiles).sum
          rw [rtf]
          exact htf q fo hfo
      · exact rreq g hg
    · intro g hg
      rcases List.mem_cons.mp hg with rfl | hg
      · exact ⟨fo, hfo, rfl⟩
      · exact rfiles g hg
    · intro k
      show k ∈ q :: (collectList (fo.subfolderPaths.filterMap (materialize M fuel))).map
        FolderStats.path ↔ _
      rw [List.mem_cons, rmem k]
      constructor
      · rintro (rfl | ⟨hk, c, hc, hd⟩)
        · exact ⟨hq, descP_refl k⟩
        · have hcd := (hchild c hc).2
          refine ⟨hk, descP_of_child c q k (hsub_parent q fo hfo c hc) ?_ hd⟩
          have := one_le_depthOf q
          omega
      · rintro ⟨hk, hdqk⟩
        by_cases hdep : depthOf k ≤ depthOf q
        · exact Or.inl (eq_of_descP_of_depth_le q k hdqk hdep)
        · have hlt : depthOf q < depthOf k := by omega
          obtain ⟨hcd, hcp, hcdk⟩ := child_of_descP q k hdqk hlt
          have hcK : joinParts ((pathParts k).take (depthOf q + 1)) ∈ mkeys M :=
            ancestors_mem M hanc (depthOf k) k hk (depthOf q + 1) (by omega) (by omega)
              (by omega)
          have hcsub : joinParts ((pathParts k).take (depthOf q + 1)) ∈ fo.subfolderPaths :=
            hsub_complete q fo hfo _ hcK
              (by
                rw [hcd]
                have := one_le_depthOf q
                omega) hcp
          exact Or.inr ⟨hk, _, hcsub, hcdk⟩
    · show (q :: (collectList (fo.subfolderPaths.filterMap (materialize M fuel))).map
        FolderStats.path).Nodup
      rw [List.nodup_cons]
      refine ⟨?_, rnodup⟩
      intro hqmem
      obtain ⟨_, c, hc, hdq⟩ := (rmem q).mp hqmem
      have hcd := (hchild c hc).2
      have := hdq.1
      omega

end HowLong

namespace HowLong

theorem sortedFolderKeys_perm (m : FolderMap) : (sortedFolderKeys m).Perm (mkeys m) := by
  unfold sortedFolderKeys mkeys
  exact (List.perm_insertionSort
    (fun a b : String × FolderAcc => depthOf b.1 ≤ depthOf a.1) m).map _

theorem le_foldr_max (l : List Nat) (x : Nat) (h : x ∈ l) : x ≤ l.foldr max 0 := by
  induction l with
  | nil => cases h
  | cons a t ih =>
    rcases List.mem_cons.mp h with rfl | h
    · exact le_max_left _ _
    · exact le_trans (ih h) (le_max_right _ _)

theorem maxDepthKeys_bound (m : FolderMap) : ∀ k ∈ mkeys m, depthOf k ≤ maxDepthKeys m := by
  intro k hk
  exact le_foldr_max _ _ (List.mem_map_of_mem depthOf hk)

/-- Decoding the filter predicate of the subfolder lists. -/
theorem childB_eq_true (p q : String) :
    childB p q = true ↔ 2 ≤ depthOf p ∧ parentOf p = q := by
  unfold childB
  rw [Bool.and_eq_true, decide_eq_true_eq, decide_eq_true_eq]

/-- In the arena produced by the two passes, every key materializes with the
chosen fuel. -/
theorem buildFolder_matok (files : List FileStats) :
    ∀ q ∈ mkeys (passTwo (passOne files).1).1,
      ∃ node, MatOk (passTwo (passOne files).1).1
        (maxDepthKeys (passTwo (passOne files).1).1 + 1) q node := by
  have inv1 := passOne_inv files
  have inv2 := passTwo_inv files
  have hperm := sortedFolderKeys_perm (passOne files).1
  have hkeq := inv2.keys_eq
  have hksnodup : (sortedFolderKeys (passOne files).1).Nodup :=
    hperm.nodup_iff.mpr inv1.keys_nodup
  have hchild_decode : ∀ q fo', mfind (passTwo (passOne files).1).1 q = some fo' →
      ∀ c ∈ fo'.subfolderPaths,
        c ∈ sortedFolderKeys (passOne files).1 ∧ 2 ≤ depthOf c ∧ parentOf c = q := by
    intro q fo' h c hc
    rw [inv2.sub_char q fo' h] at hc
    obtain ⟨hcmem, hcb⟩ := List.mem_filter.mp hc
    exact ⟨hcmem, (childB_eq_true c q).mp hcb⟩
  intro q hq
  refine materialize_main (passTwo (passOne files).1).1
    (maxDepthKeys (passTwo (passOne files).1).1)
    (maxDepthKeys_bound _) ?_ ?_ ?_ ?_ inv2.tot_chars inv2.tot_len inv2.tot_files ?_
    (maxDepthKeys (passTwo (passOne files).1).1 + 1) q hq (by omega)
  · intro q' fo' h c hc
    obtain ⟨hcks, hc2, hcp⟩ := hchild_decode q' fo' h c hc
    have hcE : c ∈ mkeys (passOne files).1 := hperm.mem_iff.mp hcks
    refine ⟨by rw [hkeq]; exact hcE, ?_⟩
    have := depthOf_parentOf c hc2
    rw [hcp] at this
    omega
  · intro q' fo' h
    rw [inv2.sub_char q' fo' h]
    exact hksnodup.filter _
  · intro q' fo' h c hcM h2 hcp
    rw [inv2.sub_char q' fo' h]
    refine List.mem_filter.mpr ⟨?_, (childB_eq_true c q').mpr ⟨h2, hcp⟩⟩
    rw [hkeq] at hcM
    exact hperm.mem_iff.mpr hcM
  · intro q' fo' h c hc
    exact (hchild_decode q' fo' h c hc).2.2
  · intro k hkM h2
    rw [hkeq] at hkM
    rw [hkeq]
    exact inv1.parent_mem k hkM h2

/-- Unfolding `buildFolderStructure` into its passes. -/
theorem buildFolderStructure_eq (files : List FileStats) :
    buildFolderStructure files = ((passOne files).2,
      sortFoldersByName ((passTwo (passOne files).1).2.filterMap
        (materialize (passTwo (passOne files).1).1
          (maxDepthKeys (passTwo (passOne files).1).1 + 1)))) := rfl

/-- Every tree of the returned forest is the materialization of a depth-1
arena key. -/
theorem forest_trees (files : List FileStats) :
    ∀ r ∈ (buildFolderStructure files).2,
      ∃ p, p ∈ mkeys (passTwo (passOne files).1).1 ∧ depthOf p = 1 ∧
        MatOk (passTwo (passOne files).1).1
          (maxDepthKeys (passTwo (passOne files).1).1 + 1) p r := by
  have inv1 := passOne_inv files
  have inv2 := passTwo_inv files
  intro r hr
  rw [buildFolderStructure_eq] at hr
  have hr2 : r ∈ (passTwo (passOne files).1).2.filterMap
      (materialize (passTwo (passOne files).1).1
        (maxDepthKeys (passTwo (passOne files).1).1 + 1)) := by
    unfold sortFoldersByName at hr
    exact (List.mem_insertionSort _).mp hr
  obtain ⟨p, hp, hmatp⟩ := List.mem_filterMap.mp hr2
  rw [inv2.roots_char] at hp
  obtain ⟨hpks, hdpb⟩ := List.mem_filter.mp hp
  have hdp : depthOf p = 1 := of_decide_eq_true hdpb
  have hpM : p ∈ mkeys (passTwo (passOne files).1).1 := by
    rw [inv2.keys_eq]
    exact (sortedFolderKeys_perm (passOne files).1).mem_iff.mp hpks
  obtain ⟨node, hMat⟩ := buildFolder_matok files p hpM
  have hnr : node = r := by
    rw [hMat.1] at hmatp
    injection hmatp
  exact ⟨p, hpM, hdp, hnr ▸ hMat⟩

end HowLong

namespace HowLong

/-- C1.  Rollup invariant: in the folder forest built by
`buildFolderStructure`, every folder's `totalCharacters` equals the sum of
its direct files' character counts plus the `totalCharacters` of its
immediate subfolders, and the same equation holds for the length total and
the file count, recursively through the whole tree. -/
theorem buildFolderStructure_rollup (files : List FileStats) :
    ∀ r ∈ (buildFolderStructure files).2, ∀ g ∈ FolderStats.collect r,
      g.totalCharacters = (g.files.map (·.characterCount)).sum +
          (g.subfolders.map FolderStats.totalCharacters).sum ∧
      g.totalLengthInCm = (g.files.map (·.lengthInCm)).sum +
          (g.subfolders.map FolderStats.totalLengthInCm).sum ∧
      g.totalFiles = g.files.length + (g.subfolders.map FolderStats.totalFiles).sum := by
  intro r hr g hg
  obtain ⟨p, hpM, hdp, hMat⟩ := forest_trees files r hr
  exact hMat.2.2.2.1 g hg

/-- A three-character file in folder `r`. -/
def wTreeFile : FileStats :=
  { path := "r/a.txt", relativePath := "r/a.txt", characterCount := 3, lengthInCm := 3,
    fileSize := 10, lastModified := 0, isTextFile := true }

/-- The folder node built for `"r"` from `[wTreeFile]`. -/
def wFolderNode : FolderStats :=
  ((buildFolderStructure [wTreeFile]).2).getD 0 (FolderStats.mk "" "" 0 0 0 0 [] [])

theorem wFolderNode_forest : (buildFolderStructure [wTreeFile]).2 = [wFolderNode] := rfl

/-- Witness for C1: the folder `"r"` of the one-file project satisfies the
three rollup equations. -/
theorem buildFolderStructure_rollup_witness :
    wFolderNode.totalCharacters = (wFolderNode.files.map (·.characterCount)).sum +
        (wFolderNode.subfolders.map FolderStats.totalCharacters).sum ∧
    wFolderNode.totalLengthInCm = (wFolderNode.files.map (·.lengthInCm)).sum +
        (wFolderNode.subfolders.map FolderStats.totalLengthInCm).sum ∧
    wFolderNode.totalFiles = wFolderNode.files.length +
        (wFolderNode.subfolders.map FolderStats.totalFiles).sum := by
  refine buildFolderStructure_rollup [wTreeFile] wFolderNode ?_ wFolderNode ?_
  · rw [wFolderNode_forest]
    exact List.mem_singleton_self wFolderNode
  · have hc : FolderStats.collect wFolderNode = [wFolderNode] := rfl
    rw [hc]
    exact List.mem_singleton_self wFolderNode

/-- Every node of the returned forest holds exactly the input files whose
parent path is the node's path. -/
theorem forest_node_files (files : List FileStats) :
    ∀ r ∈ (buildFolderStructure files).2, ∀ g ∈ FolderStats.collect r,
      g.files = files.filter (fun f => phiB f g.path) := by
  have inv1 := passOne_inv files
  have inv2 := passTwo_inv files
  intro r hr g hg
  obtain ⟨p, hpM, hdp, hMat⟩ := forest_trees files r hr
  obtain ⟨fo'', hfo'', hgf⟩ := hMat.2.2.2.2.1 g hg
  have hgE : g.path ∈ mkeys (passOne files).1 := by
    rw [← inv2.keys_eq]
    rw [mem_mkeys_iff_mfind, hfo'']
    rfl
  have hgEs := (mem_mkeys_iff_mfind _ _).mp hgE
  rcases hfoE : mfind (passOne files).1 g.path with _ | foE
  · rw [hfoE] at hgEs
    cases hgEs
  rw [hgf, inv2.files_eq g.path foE fo'' hfoE hfo'', inv1.files_char _ foE hfoE]

/-- Every depth-1 key of the arena appears as a root tree of the forest. -/
theorem forest_root_exists (files : List FileStats) (p : String)
    (hpE : p ∈ mkeys (passOne files).1) (hd : depthOf p = 1) :
    ∃ r ∈ (buildFolderStructure files).2,
      MatOk (passTwo (passOne files).1).1
        (maxDepthKeys (passTwo (passOne files).1).1 + 1) p r := by
  have inv2 := passTwo_inv files
  have hpks : p ∈ sortedFolderKeys (passOne files).1 :=
    (sortedFolderKeys_perm _).mem_iff.mpr hpE
  have hpM : p ∈ mkeys (passTwo (passOne files).1).1 := by
    rw [inv2.keys_eq]
    exact hpE
  obtain ⟨node, hMat⟩ := buildFolder_matok files p hpM
  have hproot : p ∈ (passTwo (passOne files).1).2 := by
    rw [inv2.roots_char]
    exact List.mem_filter.mpr ⟨hpks, decide_eq_true hd⟩
  refine ⟨node, ?_, hMat⟩
  rw [buildFolderStructure_eq]
  show node ∈ sortFoldersByName _
  unfold sortFoldersByName
  rw [List.mem_insertionSort]
  exact List.mem_filterMap.mpr ⟨p, hproot, hMat.1⟩

/-- In a list of nodes with distinct paths, a node is determined by its
path. -/
theorem eq_of_path_nodup (l : List FolderStats) (hn : (l.map FolderStats.path).Nodup)
    (g g' : FolderStats) (hg : g ∈ l) (hg' : g' ∈ l) (hp : g.path = g'.path) : g = g' := by
  induction l with
  | nil => cases hg
  | cons a t ih =>
    rw [List.map_cons, List.nodup_cons] at hn
    rcases List.mem_cons.mp hg with rfl | hgt <;> rcases List.mem_cons.mp hg' with rfl | hgt'
    · rfl
    · exact absurd (by rw [hp]; exact List.mem_map_of_mem FolderStats.path hgt') hn.1
    · exact absurd (by rw [← hp]; exact List.mem_map_of_mem FolderStats.path hgt) hn.1
    · exact ih hn.2 hgt hgt'

/-- A nonempty join of nonempty slash-free segments is a nonempty string. -/
theorem joinParts_ne_empty (l : List String) (hl : l ≠ []) (h : ∀ x ∈ l, x ≠ "") :
    joinParts l ≠ "" := by
  intro hempty
  have hdata := congrArg String.data hempty
  rcases l with _ | ⟨x, t⟩
  · exact hl rfl
  rcases t with _ | ⟨y, t'⟩
  · have hx : (joinParts [x]).data = x.data := rfl
    rw [hx] at hdata
    refine h x (List.mem_singleton_self x) ?_
    rw [← string_mk_data x, hdata]
  · have hx : (joinParts (x :: y :: t')).data =
        x.data ++ '/' :: joinCh '/' ((y :: t').map String.data) := rfl
    rw [hx] at hdata
    have hne : x.data ++ '/' :: joinCh '/' ((y :: t').map String.data) ≠ ([] : List Char) := by
      simp
    refine hne ?_
    rw [hdata]

end HowLong

namespace HowLong

theorem phiB_eq_true (f : FileStats) (q : String) :
    phiB f q = true ↔ 1 < (pathParts f.relativePath).length ∧
      parentOf f.relativePath = q ∧ parentOf f.relativePath ≠ "" := by
  unfold phiB
  rw [Bool.and_eq_true, Bool.and_eq_true, decide_eq_true_eq, decide_eq_true_eq,
    decide_eq_true_eq]
  constructor
  · rintro ⟨⟨a, b⟩, c⟩
    exact ⟨a, b, c⟩
  · rintro ⟨a, b, c⟩
    exact ⟨⟨a, b⟩, c⟩

/-- C9.  Partition completeness: for analyzed files (relative paths with no
empty segments), every single-segment file appears in the returned
root-files list and in no folder's direct files, and every other file
appears in the direct-files list of exactly one folder of the forest — the
folder whose path is the file's immediate parent directory. -/
theorem buildFolderStructure_partition (files : List FileStats)
    (hwf : ∀ f ∈ files, ∀ seg ∈ pathParts f.relativePath, seg ≠ "") :
    ∀ f ∈ files,
      ((pathParts f.relativePath).length = 1 →
        f ∈ (buildFolderStructure files).1 ∧
        ∀ r ∈ (buildFolderStructure files).2, ∀ g ∈ FolderStats.collect r,
          f ∉ g.files) ∧
      (1 < (pathParts f.relativePath).length →
        f ∉ (buildFolderStructure files).1 ∧
        ∃ r ∈ (buildFolderStructure files).2, ∃ g ∈ FolderStats.collect r,
          f ∈ g.files ∧ g.path = parentOf f.relativePath ∧
          ∀ r' ∈ (buildFolderStructure files).2, ∀ g' ∈ FolderStats.collect r',
            f ∈ g'.files → g' = g) := by
  have inv1 := passOne_inv files
  have inv2 := passTwo_inv files
  have hroot1 : (buildFolderStructure files).1 =
      files.filter (fun f => decide ((pathParts f.relativePath).length = 1)) := by
    rw [buildFolderStructure_eq]
    exact inv1.roots_eq
  intro f hf
  constructor
  · intro hlen
    constructor
    · rw [hroot1]
      exact List.mem_filter.mpr ⟨hf, decide_eq_true hlen⟩
    · intro r hr g hg hmem
      rw [forest_node_files files r hr g hg] at hmem
      obtain ⟨-, hphi⟩ := List.mem_filter.mp hmem
      obtain ⟨h1, -, -⟩ := (phiB_eq_true f g.path).mp hphi
      omega
  · intro hlen
    have hwff := hwf f hf
    have hdl_ne : (pathParts f.relativePath).dropLast ≠ [] := by
      intro h
      have hle := congrArg List.length h
      rw [List.length_dropLast] at hle
      simp at hle
      omega
    have hp0ne : parentOf f.relativePath ≠ "" := by
      unfold parentOf
      apply joinParts_ne_empty _ hdl_ne
      intro x hx
      exact hwff x (List.mem_of_mem_dropLast hx)
    have hphi : phiB f (parentOf f.relativePath) = true :=
      (phiB_eq_true f _).mpr ⟨hlen, rfl, hp0ne⟩
    constructor
    · rw [hroot1]
      intro hmem
      obtain ⟨-, hpred⟩ := List.mem_filter.mp hmem
      have h1 : (pathParts f.relativePath).length = 1 := of_decide_eq_true hpred
      omega
    · have hp0E : parentOf f.relativePath ∈ mkeys (passOne files).1 := by
        rw [mem_mkeys_iff_mfind]
        rcases hE : mfind (passOne files).1 (parentOf f.relativePath) with _ | foE
        · have hnone := inv1.none_char _ hE
          have hin : f ∈ files.filter (fun g => phiB g (parentOf f.relativePath)) :=
            List.mem_filter.mpr ⟨hf, hphi⟩
          rw [hnone] at hin
          cases hin
        · rfl
      have hd0 : 1 ≤ depthOf (parentOf f.relativePath) := one_le_depthOf _
      have hsf0 := slash_not_mem_pathParts (parentOf f.relativePath)
      have hr0E : joinParts ((pathParts (parentOf f.relativePath)).take 1)
          ∈ mkeys (passOne files).1 :=
        ancestors_mem (passOne files).1 inv1.parent_mem
          (depthOf (parentOf f.relativePath)) (parentOf f.relativePath) hp0E 1
          (le_refl 1) hd0 (by omega)
      have hdr0 : depthOf (joinParts ((pathParts (parentOf f.relativePath)).take 1)) = 1 :=
        depthOf_join_take _ hsf0 0 hd0
      obtain ⟨r, hrF, hMat⟩ := forest_root_exists files _ hr0E hdr0
      have hp0M : parentOf f.relativePath ∈ mkeys (passTwo (passOne files).1).1 := by
        rw [inv2.keys_eq]
        exact hp0E
      have hdesc : DescP (joinParts ((pathParts (parentOf f.relativePath)).take 1))
          (parentOf f.relativePath) := by
        constructor
        · rw [hdr0]
          exact hd0
        · rw [hdr0, pathParts_join_take _ hsf0 0 hd0]
      have hp0mem : parentOf f.relativePath ∈
          (FolderStats.collect r).map FolderStats.path :=
        (hMat.2.2.2.2.2.1 (parentOf f.relativePath)).mpr ⟨hp0M, hdesc⟩
      obtain ⟨g, hg, hgpath⟩ := List.mem_map.mp hp0mem
      refine ⟨r, hrF, g, hg, ?_, hgpath, ?_⟩
      · rw [forest_node_files files r hrF g hg, hgpath]
        exact List.mem_filter.mpr ⟨hf, hphi⟩
      · intro r' hr' g' hg' hfg'
        have hgp' : g'.path = parentOf f.relativePath := by
          rw [forest_node_files files r' hr' g' hg'] at hfg'
          obtain ⟨-, hphi'⟩ := List.mem_filter.mp hfg'
          obtain ⟨-, hpar', -⟩ := (phiB_eq_true f g'.path).mp hphi'
          exact hpar'.symm
        obtain ⟨p', hp'M, hdp', hMat'⟩ := forest_trees files r' hr'
        have hg'mem : g'.path ∈ (FolderStats.collect r').map FolderStats.path :=
          List.mem_map_of_mem FolderStats.path hg'
        obtain ⟨-, hdesc'⟩ := (hMat'.2.2.2.2.2.1 g'.path).mp hg'mem
        rw [hgp'] at hdesc'
        have hpr0 : p' = joinParts ((pathParts (parentOf f.relativePath)).take 1) := by
          have htake := hdesc'.2
          rw [hdp'] at htake
          rw [← joinParts_pathParts p', htake]
        have hrr : r' = r := by
          have h1 := hMat'.1
          rw [hpr0] at h1
          rw [hMat.1] at h1
          injection h1 with h1
          exact h1.symm
        rw [hrr] at hg'
        exact eq_of_path_nodup (FolderStats.collect r) hMat.2.2.2.2.2.2 g' g hg' hg
          (by rw [hgp', hgpath])

/-- Witness for C9: the file `r/a.txt` is not a root file and lies in exactly
one folder — the folder `"r"`. -/
theorem buildFolderStructure_partition_witness :
    wTreeFile ∉ (buildFolderStructure [wTreeFile]).1 ∧
    ∃ r ∈ (buildFolderStructure [wTreeFile]).2, ∃ g ∈ FolderStats.collect r,
      wTreeFile ∈ g.files ∧ g.path = parentOf wTreeFile.relativePath ∧
      ∀ r' ∈ (buildFolderStructure [wTreeFile]).2, ∀ g' ∈ FolderStats.collect r',
        wTreeFile ∈ g'.files → g' = g :=
  (buildFolderStructure_partition [wTreeFile] (by decide) wTreeFile
    (List.mem_singleton_self wTreeFile)).2 (by decide)

end HowLong
